import Mathlib

/-!
Verification of the Merkle-tree and Tip5 hashing core of the `twenty-first`
library against its natural-language specification.

The Merkle-tree part (`src/twenty-first/src/util_types/merkle_tree.rs`) is
embedded generically over an arbitrary digest type `D` with decidable equality
and an arbitrary hash function `hash : D → D → D`, mirroring the Rust code's
genericity over `H : AlgebraicHasher`.  Machine integers (`usize`) are embedded
as `Nat` with explicit `% 2 ^ 64` at the operations where 64-bit overflow can
actually occur; overflow follows release-profile Rust semantics (wrapping
arithmetic, masked shifts), while `assert!`, out-of-bounds indexing and other
unconditional panics are embedded as `Option.none`.
-/

namespace TF

/-- 2^64, the modulus of `usize` arithmetic on a 64-bit target. -/
def U64 : Nat := 2 ^ 64

section Merkle

variable {D : Type} [DecidableEq D]

/-- Fuel-based helper for `walkUp` (the fuel `n` itself always suffices, see
`walkUp_eq`); structural recursion keeps the function kernel-computable. -/
def walkUpAux : Nat → Nat → List Nat
  | _, 0 => []
  | n, fuel + 1 => if n ≤ 1 then [] else n :: walkUpAux (n / 2) fuel

/-- The node indices visited by the `while node_index > root_index` loop in
`indices_of_nodes_in_authentication_structure` when walking from `n` towards
the root: `n, n/2, n/4, ...` as long as the value exceeds 1. -/
def walkUp (n : Nat) : List Nat := walkUpAux n n

theorem walkUpAux_fuel :
    ∀ (f1 f2 n : Nat), n ≤ f1 → n ≤ f2 → walkUpAux n f1 = walkUpAux n f2 := by
  intro f1
  induction f1 with
  | zero =>
    intro f2 n h1 _
    have hn : n = 0 := by omega
    subst hn
    cases f2 with
    | zero => rfl
    | succ f2 => simp [walkUpAux]
  | succ f1 ih =>
    intro f2 n h1 h2
    cases f2 with
    | zero =>
      have hn : n = 0 := by omega
      subst hn
      simp [walkUpAux]
    | succ f2 =>
      simp only [walkUpAux]
      by_cases hn : n ≤ 1
      · rw [if_pos hn, if_pos hn]
      · rw [if_neg hn, if_neg hn]
        congr 1
        exact ih f2 (n / 2) (by omega) (by omega)

/-- The recursion equation for `walkUp`, matching the source loop. -/
theorem walkUp_eq (n : Nat) : walkUp n = if n ≤ 1 then [] else n :: walkUp (n / 2) := by
  unfold walkUp
  by_cases h : n ≤ 1
  · rw [if_pos h]
    match n, h with
    | 0, _ => rfl
    | 1, _ => rfl
  · rw [if_neg h]
    obtain ⟨m, rfl⟩ : ∃ m, n = m + 1 := ⟨n - 1, by omega⟩
    simp only [walkUpAux, if_neg h]
    congr 1
    exact walkUpAux_fuel m ((m + 1) / 2) ((m + 1) / 2) (by omega) (Nat.le_refl _)

/-- The `node_can_be_computed` set of `indices_of_nodes_in_authentication_structure`:
every node on the direct path from a requested leaf to the root.
The `% U64` models the (release-mode, wrapping) `leaf_index + num_leaves`. -/
def computableList (numLeaves : Nat) (leafIndices : List Nat) : List Nat :=
  leafIndices.flatMap (fun li => walkUp ((li + numLeaves) % U64))

/-- The `node_is_needed` set of `indices_of_nodes_in_authentication_structure`:
the sibling (`^ 1`) of every node on every path. -/
def neededList (numLeaves : Nat) (leafIndices : List Nat) : List Nat :=
  leafIndices.flatMap (fun li => (walkUp ((li + numLeaves) % U64)).map (fun x => x ^^^ 1))

/-- Ascending sort; stands in for `Vec::sort`/`sorted_unstable` (on `Nat` with `≤`,
every correct sort produces the same list). -/
def sortNat (l : List Nat) : List Nat := List.insertionSort (· ≤ ·) l

/-- The sorted deduplicated difference `node_is_needed \ node_can_be_computed`
returned by `indices_of_nodes_in_authentication_structure`. -/
def authIdxList (numLeaves : Nat) (leafIndices : List Nat) : List Nat :=
  sortNat (((neededList numLeaves leafIndices).filter
    (fun j => decide (j ∉ computableList numLeaves leafIndices))).dedup)

/-- `MerkleTree::indices_of_nodes_in_authentication_structure`.  The leading
`assert!` ("All leaf indices must be valid.") is embedded as `none`. -/
def indicesOfNodesInAuthStructure (numNodes : Nat) (leafIndices : List Nat) :
    Option (List Nat) :=
  let numLeaves := numNodes / 2
  if leafIndices.all (fun li => decide ((li + numLeaves) % U64 < numNodes)) then
    some (authIdxList numLeaves leafIndices)
  else none

/-- Insertion into the partial-tree map (`HashMap<usize, Digest>`). -/
def pinsert (m : Nat → Option D) (k : Nat) (v : D) : Nat → Option D :=
  fun j => if j = k then some v else m j

/-- `HashMap::from_iter` / `.collect()` over key-value pairs (later pairs win). -/
def pmapOfList (l : List (Nat × D)) : Nat → Option D :=
  l.foldl (fun m kv => pinsert m kv.1 kv.2) (fun _ => none)

/-- The loop of `verify_authentication_structure` that inserts the revealed
leaf digests into the partial Merkle tree; `none` is the `return false` taken
when a repeated leaf index comes with a differing digest. -/
def addLeafDigests (numLeaves : Nat) :
    (Nat → Option D) → List (Nat × D) → Option (Nat → Option D)
  | m, [] => some m
  | m, (li, ld) :: rest =>
    let nodeIndex := li + numLeaves
    match m nodeIndex with
    | none => addLeafDigests numLeaves (pinsert m nodeIndex ld) rest
    | some d => if d = ld then addLeafDigests numLeaves m rest else none

/-- One round of the bottom-up hashing loop of `verify_authentication_structure`:
process each parent index of the current frontier.  `none` is `return false`
(parent already present, or a missing child). -/
def processLevel (hash : D → D → D) :
    (Nat → Option D) → List Nat → Option (Nat → Option D)
  | m, [] => some m
  | m, p :: rest =>
    if (m p).isSome then none
    else
      match m (p * 2), m ((p * 2) ^^^ 1) with
      | some l, some r => processLevel hash (pinsert m p (hash l r)) rest
      | _, _ => none

/-- `Vec::dedup`: remove *consecutive* duplicates. -/
def dedupAdj : List Nat → List Nat
  | [] => []
  | [a] => [a]
  | a :: b :: rest => if a = b then dedupAdj (b :: rest) else a :: dedupAdj (b :: rest)

/-- The `for _ in 0..tree_height` loop of `verify_authentication_structure`:
hash one level, then move the parent indices one layer up and `dedup`. -/
def runRounds (hash : D → D → D) :
    Nat → (Nat → Option D) → List Nat → Option (Nat → Option D)
  | 0, m, _ => some m
  | t + 1, m, ps =>
    match processLevel hash m ps with
    | none => none
    | some m2 => runRounds hash t m2 (dedupAdj (ps.map (fun i => i / 2)))

/-- `MerkleTree::verify_authentication_structure` under release-profile `usize`
semantics: `1 << tree_height` masks the shift amount and `num_leaves * 2` wraps.
The result is `some b` when the Rust function returns `b`, and `none` when it
panics (the `assert!` inside `indices_of_nodes_in_authentication_structure`, or
the final `partial_merkle_tree[&1]` on an absent key). -/
def verifyAuthenticationStructure (hash : D → D → D) (root : D) (treeHeight : Nat)
    (leafIndices : List Nat) (leafDigests authenticationStructure : List D) :
    Option Bool :=
  let numLeaves := 1 <<< (treeHeight % 64)
  let numNodes := numLeaves * 2 % U64
  if leafIndices.length ≠ leafDigests.length then some false
  else if leafIndices.isEmpty then some true
  else if leafIndices.any (fun i => decide (numLeaves ≤ i)) then some false
  else
    match indicesOfNodesInAuthStructure numNodes leafIndices with
    | none => none
    | some idxs =>
      if authenticationStructure.length ≠ idxs.length then some false
      else
        let m0 := pmapOfList (idxs.zip authenticationStructure)
        match addLeafDigests numLeaves m0 (leafIndices.zip leafDigests) with
        | none => some false
        | some m1 =>
          let parents := dedupAdj (sortNat (leafIndices.map (fun i => (i + numLeaves) / 2)))
          match runRounds hash treeHeight m1 parents with
          | none => some false
          | some m2 =>
            match m2 1 with
            | none => none
            | some d => some (decide (d = root))

/-- Modelled from the spec: `is_power_of_two` from `shared_math::other` (only
its callers are under `src/`); per the spec a Merkle tree has "a power-of-two
number of leaf digests", i.e. a length equal to `2^k` for some `k`, and a zero
or non-power-of-two count is rejected.  The search bound `n` suffices because
`k < 2^k`. -/
def isPowerOfTwo (n : Nat) : Bool := (List.range (n + 1)).any (fun k => n == 2 ^ k)

/-- The reference node-value function: `nodeDigest hash L ds f i` is the digest
the tree stores at node index `i` for leaves `ds` (`L = ds.length`); `f` is the
value at the unused index 0 (the builder's `filler`, i.e. `ds[0]`) and the
default for out-of-range reads. -/
def nodeDigest (hash : D → D → D) (L : Nat) (ds : List D) (f : D) (i : Nat) : D :=
  if i = 0 then f
  else if L ≤ i then ds.getD (i - L) f
  else hash (nodeDigest hash L ds f (2 * i)) (nodeDigest hash L ds f (2 * i + 1))
termination_by 2 * L - i
decreasing_by
  · omega
  · omega

/-- The node array `[nodeDigest 0, ..., nodeDigest (2L - 1)]` that
`from_digests` is expected to produce. -/
def refNodes (hash : D → D → D) (ds : List D) : List D :=
  match ds with
  | [] => []
  | f :: _ => (List.range (2 * ds.length)).map (nodeDigest hash ds.length ds f)

/-- Overwrite `nodes[start .. start + vals.length)` with `vals`
(`clone_from_slice` into a sub-slice). -/
def overwriteSlice (nodes : List D) (start : Nat) (vals : List D) : List D :=
  nodes.take start ++ vals ++ nodes.drop (start + vals.length)

/-- Fuel-based helper for `parLevels` (the fuel `n` itself always suffices,
see `parLevels_eq`); structural recursion keeps it kernel-computable. -/
def parLevelsAux (hash : D → D → D) (f : D) : Nat → List D → Nat → Nat → List D × Nat
  | 0, nodes, _, acc => (nodes, acc)
  | fuel + 1, nodes, n, acc =>
    if 16 ≤ n then
      let locals := (List.range n).map
        (fun i => hash (nodes.getD ((n + i) * 2) f) (nodes.getD ((n + i) * 2 + 1) f))
      parLevelsAux hash f fuel (overwriteSlice nodes n locals) (n / 2) (acc + n)
    else (nodes, acc)

/-- The `while node_count_on_this_level >= PARALLELLIZATION_THRESHOLD` loop of
`CpuParallel::from_digests`: compute one full level as a map over the already
written lower level, write it into `nodes[n .. 2n)`, accumulate `count_acc`.
(The rayon parallel map is semantically the sequential map.) -/
def parLevels (hash : D → D → D) (f : D) (nodes : List D) (n acc : Nat) : List D × Nat :=
  parLevelsAux hash f n nodes n acc

/-- The sequential tail loop of `from_digests`:
`for i in (1..k).rev() { nodes[i] = hash_pair(nodes[2i], nodes[2i+1]) }`. -/
def seqLoop (hash : D → D → D) (f : D) : List D → Nat → List D
  | nodes, 0 => nodes
  | nodes, 1 => nodes
  | nodes, j + 2 =>
    seqLoop hash f
      (nodes.set (j + 1) (hash (nodes.getD ((j + 1) * 2) f) (nodes.getD ((j + 1) * 2 + 1) f)))
      (j + 1)

/-- `CpuParallel::from_digests`.  `none` embeds the panic on a non-power-of-two
(in particular empty) input. -/
def fromDigests (hash : D → D → D) (digests : List D) : Option (List D) :=
  if isPowerOfTwo digests.length then
    match digests with
    | [] => none
    | f :: _ =>
      let L := digests.length
      let nodes0 := List.replicate L f ++ digests
      let pr := parLevels hash f nodes0 (L / 2) 0
      some (seqLoop hash f pr.1 (L - pr.2))
  else none

/-- `MerkleTree::get_root`: `self.nodes[1]` (panic on out-of-range is `none`). -/
def getRoot (nodes : List D) : Option D := nodes[1]?

/-- `MerkleTree::get_leaf_by_index` under release-profile `usize` semantics:
the guarding `assert!` is `none` when it fires and the wrapping
`first_leaf_index + index` is `% U64`; an out-of-bounds `self.nodes[...]`
is likewise `none`. -/
def getLeafByIndex (nodes : List D) (index : Nat) : Option D :=
  let firstLeafIndex := nodes.length / 2
  let beyondLastLeafIndex := nodes.length
  if index < firstLeafIndex ∨ beyondLastLeafIndex ≤ index then
    nodes[(firstLeafIndex + index) % U64]?
  else none

/-- `MerkleTree::get_leaves_by_indices`. -/
def getLeavesByIndices (nodes : List D) (leafIndices : List Nat) : Option (List D) :=
  leafIndices.mapM (getLeafByIndex nodes)

/-- `MerkleTree::get_authentication_structure`:
the stored digests at the computed structure indices. -/
def getAuthenticationStructure (nodes : List D) (leafIndices : List Nat) :
    Option (List D) :=
  match indicesOfNodesInAuthStructure nodes.length leafIndices with
  | none => none
  | some idxs => idxs.mapM (fun i => nodes[i]?)


/-! ### Arithmetic helper lemmas -/

theorem two_mul_xor_one (p : Nat) : 2 * p ^^^ 1 = 2 * p + 1 := by
  apply Nat.eq_of_testBit_eq
  intro i
  cases i with
  | zero =>
    rw [Nat.testBit_xor]
    simp only [Nat.testBit_zero]
    have h1 : 2 * p % 2 = 0 := by omega
    have h2 : (2 * p + 1) % 2 = 1 := by omega
    simp [h1, h2]
  | succ i =>
    rw [Nat.testBit_xor, Nat.testBit_add_one, Nat.testBit_add_one, Nat.testBit_add_one]
    have h1 : 2 * p / 2 = p := by omega
    have h2 : (2 * p + 1) / 2 = p := by omega
    have h3 : (1 : Nat) / 2 = 0 := by omega
    simp [h1, h2, h3, Nat.zero_testBit]

theorem two_mul_add_one_xor_one (p : Nat) : (2 * p + 1) ^^^ 1 = 2 * p := by
  have := two_mul_xor_one p
  calc (2 * p + 1) ^^^ 1 = (2 * p ^^^ 1) ^^^ 1 := by rw [this]
    _ = 2 * p := Nat.xor_cancel_right 1 (2 * p)

/-- Split any `n` into its even/odd form together with the value of `n ^^^ 1`. -/
theorem xor_one_cases (n : Nat) :
    (∃ p, n = 2 * p ∧ n ^^^ 1 = 2 * p + 1) ∨ (∃ p, n = 2 * p + 1 ∧ n ^^^ 1 = 2 * p) := by
  rcases Nat.even_or_odd n with h | h
  · obtain ⟨p, hp⟩ := h
    left
    refine ⟨p, by omega, ?_⟩
    rw [show n = 2 * p by omega]
    exact two_mul_xor_one p
  · obtain ⟨p, hp⟩ := h
    right
    refine ⟨p, by omega, ?_⟩
    rw [show n = 2 * p + 1 by omega]
    exact two_mul_add_one_xor_one p

theorem xor_one_div_two (n : Nat) : (n ^^^ 1) / 2 = n / 2 := by
  rcases xor_one_cases n with ⟨p, hn, hx⟩ | ⟨p, hn, hx⟩ <;> omega

theorem two_le_xor_one {n : Nat} (h : 2 ≤ n) : 2 ≤ n ^^^ 1 := by
  rcases xor_one_cases n with ⟨p, hn, hx⟩ | ⟨p, hn, hx⟩ <;> omega

/-- The two children `{2p, 2p+1}` of `p` are exactly `{c, c ^^^ 1}` for any `c`
with `c / 2 = p`. -/
theorem child_sibling_cases {c p : Nat} (h : c / 2 = p) :
    (c = 2 * p ∧ c ^^^ 1 = 2 * p + 1) ∨ (c = 2 * p + 1 ∧ c ^^^ 1 = 2 * p) := by
  rcases xor_one_cases c with ⟨q, hc, hx⟩ | ⟨q, hc, hx⟩
  · left
    constructor <;> omega
  · right
    constructor <;> omega

/-- Division by a power of two maps the dyadic block `[2^a, 2^(a+1))` into
`[2^(a-k), 2^(a-k+1))`, for `k ≤ a`. -/
theorem div_pow_interval {n a k : Nat} (hk : k ≤ a) (h1 : 2 ^ a ≤ n) (h2 : n < 2 ^ (a + 1)) :
    2 ^ (a - k) ≤ n / 2 ^ k ∧ n / 2 ^ k < 2 ^ (a - k + 1) := by
  constructor
  · have : (2 : Nat) ^ a / 2 ^ k ≤ n / 2 ^ k := Nat.div_le_div_right h1
    rwa [Nat.pow_div hk (by omega)] at this
  · rw [Nat.div_lt_iff_lt_mul (Nat.pos_pow_of_pos k (by omega))]
    calc n < 2 ^ (a + 1) := h2
      _ = 2 ^ (a - k + 1) * 2 ^ k := by
        rw [← Nat.pow_add]
        congr 1
        omega

/-- Dyadic blocks are disjoint: a number lies in exactly one `[2^a, 2^(a+1))`. -/
theorem dyadic_block_unique {x a b : Nat} (h1a : 2 ^ a ≤ x) (h2a : x < 2 ^ (a + 1))
    (h1b : 2 ^ b ≤ x) (h2b : x < 2 ^ (b + 1)) : a = b := by
  by_contra hne
  rcases Nat.lt_or_ge a b with h | h
  · have : (2 : Nat) ^ (a + 1) ≤ 2 ^ b := Nat.pow_le_pow_right (by omega) (by omega)
    omega
  · have hab : b < a := by omega
    have : (2 : Nat) ^ (b + 1) ≤ 2 ^ a := Nat.pow_le_pow_right (by omega) (by omega)
    omega

/-- If an ancestor `n / 2^k` of a leaf node `n ∈ [2^h, 2^(h+1))` lands in the
dyadic block of depth `h - t`, then `k = t`. -/
theorem ancestor_level_unique {n h k t : Nat} (hn1 : 2 ^ h ≤ n) (hn2 : n < 2 ^ (h + 1))
    (ht : t ≤ h) (hs1 : 2 ^ (h - t) ≤ n / 2 ^ k) (hs2 : n / 2 ^ k < 2 ^ (h - t + 1)) :
    k = t := by
  rcases Nat.lt_or_ge h k with hk | hk
  · have hz : n / 2 ^ k = 0 := by
      apply Nat.div_eq_of_lt
      calc n < 2 ^ (h + 1) := hn2
        _ ≤ 2 ^ k := Nat.pow_le_pow_right (by omega) (by omega)
    have : (0 : Nat) < 2 ^ (h - t) := Nat.pos_pow_of_pos _ (by omega)
    omega
  · obtain ⟨hl, hr⟩ := div_pow_interval hk hn1 hn2
    have : h - k = h - t := dyadic_block_unique hl hr hs1 hs2
    omega

/-- For `a ≥ 1`, the dyadic block `[2^a, 2^(a+1))` is closed under `· ^^^ 1`. -/
theorem xor_one_mem_interval {n a : Nat} (ha : 1 ≤ a) (h1 : 2 ^ a ≤ n)
    (h2 : n < 2 ^ (a + 1)) : 2 ^ a ≤ n ^^^ 1 ∧ n ^^^ 1 < 2 ^ (a + 1) := by
  have hpow : (2 : Nat) ^ a = 2 * 2 ^ (a - 1) := by
    calc (2 : Nat) ^ a = 2 ^ (1 + (a - 1)) := by congr 1; omega
      _ = 2 * 2 ^ (a - 1) := by rw [Nat.pow_add, Nat.pow_one]
  have hpow2 : (2 : Nat) ^ (a + 1) = 2 * 2 ^ a := by
    rw [Nat.pow_succ]; omega
  rcases xor_one_cases n with ⟨p, hn, hx⟩ | ⟨p, hn, hx⟩ <;> omega

/-- `n / 2 / 2^k = n / 2^(k+1)`. -/
theorem div_two_div_pow (n k : Nat) : n / 2 / 2 ^ k = n / 2 ^ (k + 1) := by
  rw [Nat.div_div_eq_div_mul]
  congr 1
  rw [Nat.pow_succ]
  omega

/-- A leaf node `n ∈ [2^h, 2^(h+1))` reaches the root: `n / 2^h = 1`. -/
theorem leaf_div_pow_height {n h : Nat} (h1 : 2 ^ h ≤ n) (h2 : n < 2 ^ (h + 1)) :
    n / 2 ^ h = 1 := by
  have hl : 1 ≤ n / 2 ^ h := by
    rw [Nat.le_div_iff_mul_le (Nat.pos_pow_of_pos _ (by omega))]
    omega
  have hr : n / 2 ^ h < 2 := by
    rw [Nat.div_lt_iff_lt_mul (Nat.pos_pow_of_pos _ (by omega))]
    have hp : (2 : Nat) ^ (h + 1) = 2 ^ h * 2 := Nat.pow_succ 2 h
    omega
  omega

/-! ### `walkUp` -/

theorem mem_walkUp {j n : Nat} : j ∈ walkUp n ↔ 1 < j ∧ ∃ k, n / 2 ^ k = j := by
  induction n using Nat.strong_induction_on with
  | _ n ih =>
    rw [walkUp_eq]
    by_cases hn : n ≤ 1
    · simp only [if_pos hn, List.not_mem_nil, false_iff]
      rintro ⟨hj, k, hk⟩
      have : n / 2 ^ k ≤ n := Nat.div_le_self _ _
      omega
    · simp only [if_neg hn, List.mem_cons]
      rw [ih (n / 2) (by omega)]
      constructor
      · rintro (rfl | ⟨hj, k, hk⟩)
        · exact ⟨by omega, 0, by simp⟩
        · refine ⟨hj, k + 1, ?_⟩
          rw [← div_two_div_pow]
          exact hk
      · rintro ⟨hj, k, hk⟩
        cases k with
        | zero => simp at hk; omega
        | succ k =>
          right
          refine ⟨hj, k, ?_⟩
          rw [div_two_div_pow]
          exact hk

/-! ### `dedupAdj` -/

theorem mem_dedupAdj : ∀ (l : List Nat) (a : Nat), a ∈ dedupAdj l ↔ a ∈ l := by
  intro l
  induction l with
  | nil => simp [dedupAdj]
  | cons b t ih =>
    cases t with
    | nil => simp [dedupAdj]
    | cons c t2 =>
      intro a
      by_cases hbc : b = c
      · rw [dedupAdj, if_pos hbc, ih a, hbc]
        simp only [List.mem_cons]
        tauto
      · rw [dedupAdj, if_neg hbc]
        simp only [List.mem_cons]
        rw [show (a ∈ dedupAdj (c :: t2)) = (a ∈ c :: t2) from propext (ih a)]
        simp

theorem sorted_lt_dedupAdj :
    ∀ (l : List Nat), l.Sorted (· ≤ ·) → (dedupAdj l).Sorted (· < ·) := by
  intro l
  induction l with
  | nil => simp [dedupAdj]
  | cons b t ih =>
    cases t with
    | nil => simp [dedupAdj]
    | cons c t2 =>
      intro hs
      have hs' : (c :: t2).Sorted (· ≤ ·) := hs.of_cons
      have hbc_le : b ≤ c := (List.sorted_cons.mp hs).1 c (List.mem_cons_self c t2)
      by_cases hbc : b = c
      · rw [dedupAdj, if_pos hbc]
        exact ih hs'
      · rw [dedupAdj, if_neg hbc]
        rw [List.sorted_cons]
        refine ⟨?_, ih hs'⟩
        intro x hx
        rw [mem_dedupAdj] at hx
        have hcx : c ≤ x := by
          rw [List.mem_cons] at hx
          rcases hx with rfl | hx
          · exact Nat.le_refl _
          · exact (List.sorted_cons.mp hs').1 x hx
        omega

theorem sorted_le_dedupAdj {l : List Nat} (h : l.Sorted (· ≤ ·)) :
    (dedupAdj l).Sorted (· ≤ ·) :=
  (sorted_lt_dedupAdj l h).imp (fun h => Nat.le_of_lt h)

theorem nodup_dedupAdj {l : List Nat} (h : l.Sorted (· ≤ ·)) : (dedupAdj l).Nodup :=
  (sorted_lt_dedupAdj l h).imp (fun h => Nat.ne_of_lt h)

/-! ### `sortNat` -/

theorem sorted_sortNat (l : List Nat) : (sortNat l).Sorted (· ≤ ·) :=
  List.sorted_insertionSort _ l

theorem mem_sortNat {a : Nat} {l : List Nat} : a ∈ sortNat l ↔ a ∈ l :=
  (List.perm_insertionSort _ l).mem_iff

theorem nodup_sortNat {l : List Nat} (h : l.Nodup) : (sortNat l).Nodup :=
  ((List.perm_insertionSort _ l).nodup_iff).mpr h

/-! ### The authentication-structure index set -/

theorem mem_authIdxList {j numLeaves : Nat} {lidx : List Nat} :
    j ∈ authIdxList numLeaves lidx ↔
      j ∈ neededList numLeaves lidx ∧ j ∉ computableList numLeaves lidx := by
  rw [authIdxList, mem_sortNat, List.mem_dedup, List.mem_filter]
  simp

theorem nodup_authIdxList {numLeaves : Nat} {lidx : List Nat} :
    (authIdxList numLeaves lidx).Nodup :=
  nodup_sortNat (List.nodup_dedup _)

theorem sorted_authIdxList {numLeaves : Nat} {lidx : List Nat} :
    (authIdxList numLeaves lidx).Sorted (· ≤ ·) :=
  sorted_sortNat _

theorem mem_computableList {j numLeaves : Nat} {lidx : List Nat} :
    j ∈ computableList numLeaves lidx ↔
      ∃ li ∈ lidx, 1 < j ∧ ∃ k, (li + numLeaves) % U64 / 2 ^ k = j := by
  simp only [computableList, List.mem_flatMap, mem_walkUp]

theorem mem_neededList {j numLeaves : Nat} {lidx : List Nat} :
    j ∈ neededList numLeaves lidx ↔
      ∃ li ∈ lidx, ∃ x, (1 < x ∧ ∃ k, (li + numLeaves) % U64 / 2 ^ k = x) ∧ x ^^^ 1 = j := by
  simp only [neededList, List.mem_flatMap, List.mem_map, mem_walkUp]

/-! ### Partial-map lemmas -/

theorem pinsert_isSome_iff {m : Nat → Option D} {k j : Nat} {v : D} :
    ((pinsert m k v) j).isSome ↔ ((m j).isSome ∨ j = k) := by
  unfold pinsert
  by_cases h : j = k <;> simp [h]

theorem foldl_pinsert_not_mem :
    ∀ (l : List (Nat × D)) (m : Nat → Option D) (j : Nat), j ∉ l.map Prod.fst →
      l.foldl (fun m kv => pinsert m kv.1 kv.2) m j = m j := by
  intro l
  induction l with
  | nil => intro m j _; rfl
  | cons kv rest ih =>
    intro m j hj
    simp only [List.map_cons, List.mem_cons] at hj
    push_neg at hj
    rw [List.foldl_cons, ih _ j hj.2]
    unfold pinsert
    rw [if_neg hj.1]

theorem foldl_pinsert_mem_nodup :
    ∀ (l : List (Nat × D)) (m : Nat → Option D) (j : Nat) (v : D),
      (l.map Prod.fst).Nodup → (j, v) ∈ l →
      l.foldl (fun m kv => pinsert m kv.1 kv.2) m j = some v := by
  intro l
  induction l with
  | nil => intro m j v _ hmem; simp at hmem
  | cons kv rest ih =>
    intro m j v hnd hmem
    rw [List.map_cons, List.nodup_cons] at hnd
    rw [List.mem_cons] at hmem
    rcases hmem with heq | hmem
    · have hj : j ∉ rest.map Prod.fst := by
        rw [← heq] at hnd
        exact hnd.1
      rw [List.foldl_cons, foldl_pinsert_not_mem rest _ j hj, ← heq]
      unfold pinsert
      rw [if_pos rfl]
    · rw [List.foldl_cons]
      exact ih _ j v hnd.2 hmem

theorem zip_self_map (f : Nat → D) :
    ∀ (ks : List Nat), ks.zip (ks.map f) = ks.map (fun a => (a, f a)) := by
  intro ks
  induction ks with
  | nil => rfl
  | cons a t ih => simp [ih]

/-- Lookup in the partial map seeded from a nodup index list paired with the
corresponding values of `f`. -/
theorem pmapOfList_self (f : Nat → D) (keys : List Nat) (hnd : keys.Nodup) (j : Nat) :
    pmapOfList (keys.zip (keys.map f)) j = if j ∈ keys then some (f j) else none := by
  have hz : keys.zip (keys.map f) = keys.map (fun a => (a, f a)) := zip_self_map f keys
  have hfst : (keys.zip (keys.map f)).map Prod.fst = keys :=
    List.map_fst_zip keys (keys.map f) (by simp)
  by_cases hj : j ∈ keys
  · rw [if_pos hj]
    apply foldl_pinsert_mem_nodup
    · rw [hfst]; exact hnd
    · rw [hz, List.mem_map]
      exact ⟨j, hj, rfl⟩
  · rw [if_neg hj]
    apply foldl_pinsert_not_mem
    rw [hfst]
    exact hj

/-! ### `addLeafDigests` lemmas -/

theorem addLeafDigests_honest (nd : Nat → D) (NL : Nat) :
    ∀ (ps : List (Nat × D)) (m : Nat → Option D),
      (∀ j x, m j = some x → x = nd j) →
      (∀ p ∈ ps, p.2 = nd (p.1 + NL)) →
      ∃ m', addLeafDigests NL m ps = some m' ∧
        (∀ j x, m' j = some x → x = nd j) ∧
        (∀ j, (m' j).isSome ↔ ((m j).isSome ∨ ∃ p ∈ ps, p.1 + NL = j)) := by
  intro ps
  induction ps with
  | nil =>
    intro m htr _
    exact ⟨m, rfl, htr, by simp⟩
  | cons p rest ih =>
    intro m htr hhon
    obtain ⟨li, ld⟩ := p
    have hld : ld = nd (li + NL) := hhon (li, ld) (List.mem_cons_self _ _)
    simp only [addLeafDigests]
    cases hm : m (li + NL) with
    | none =>
      simp only [hm]
      have htr2 : ∀ j x, pinsert m (li + NL) ld j = some x → x = nd j := by
        intro j x hx
        unfold pinsert at hx
        by_cases hj : j = li + NL
        · rw [if_pos hj] at hx
          have hxld : x = ld := (Option.some_inj.mp hx).symm
          rw [hxld, hld, hj]
        · rw [if_neg hj] at hx
          exact htr j x hx
      obtain ⟨m2, heq, htr3, hdom⟩ := ih (pinsert m (li + NL) ld) htr2
        (fun q hq => hhon q (List.mem_cons_of_mem _ hq))
      refine ⟨m2, heq, htr3, ?_⟩
      intro j
      rw [hdom j, pinsert_isSome_iff]
      constructor
      · rintro ((hj | hj) | ⟨q, hq, hjq⟩)
        · exact Or.inl hj
        · exact Or.inr ⟨(li, ld), List.mem_cons_self _ _, hj.symm⟩
        · exact Or.inr ⟨q, List.mem_cons_of_mem _ hq, hjq⟩
      · rintro (hj | ⟨q, hq, hjq⟩)
        · exact Or.inl (Or.inl hj)
        · rw [List.mem_cons] at hq
          rcases hq with rfl | hq
          · exact Or.inl (Or.inr hjq.symm)
          · exact Or.inr ⟨q, hq, hjq⟩
    | some d =>
      simp only [hm]
      have hd : d = nd (li + NL) := htr _ _ hm
      rw [if_pos (by rw [hd, hld])]
      obtain ⟨m2, heq, htr3, hdom⟩ := ih m htr
        (fun q hq => hhon q (List.mem_cons_of_mem _ hq))
      refine ⟨m2, heq, htr3, ?_⟩
      intro j
      rw [hdom j]
      constructor
      · rintro (hj | ⟨q, hq, hjq⟩)
        · exact Or.inl hj
        · exact Or.inr ⟨q, List.mem_cons_of_mem _ hq, hjq⟩
      · rintro (hj | ⟨q, hq, hjq⟩)
        · exact Or.inl hj
        · rw [List.mem_cons] at hq
          rcases hq with rfl | hq
          · left
            rw [← hjq, hm]
            rfl
          · exact Or.inr ⟨q, hq, hjq⟩

theorem addLeafDigests_mono {NL : Nat} :
    ∀ {ps : List (Nat × D)} {m m' : Nat → Option D},
      addLeafDigests NL m ps = some m' → ∀ j, (m j).isSome → (m' j).isSome := by
  intro ps
  induction ps with
  | nil =>
    intro m m' heq j hj
    simp only [addLeafDigests] at heq
    rw [← Option.some_inj.mp heq]
    exact hj
  | cons p rest ih =>
    intro m m' heq j hj
    obtain ⟨li, ld⟩ := p
    simp only [addLeafDigests] at heq
    cases hm : m (li + NL) with
    | none =>
      simp only [hm] at heq
      exact ih heq j (by rw [pinsert_isSome_iff]; exact Or.inl hj)
    | some d =>
      simp only [hm] at heq
      by_cases hd : d = ld
      · rw [if_pos hd] at heq
        exact ih heq j hj
      · rw [if_neg hd] at heq
        exact absurd heq (by simp)

theorem addLeafDigests_isSome_of_mem {NL : Nat} :
    ∀ {ps : List (Nat × D)} {m m' : Nat → Option D},
      addLeafDigests NL m ps = some m' → ∀ p ∈ ps, (m' (p.1 + NL)).isSome := by
  intro ps
  induction ps with
  | nil =>
    intro m m' _ p hp
    simp at hp
  | cons q rest ih =>
    intro m m' heq p hp
    obtain ⟨li, ld⟩ := q
    simp only [addLeafDigests] at heq
    rw [List.mem_cons] at hp
    cases hm : m (li + NL) with
    | none =>
      simp only [hm] at heq
      rcases hp with rfl | hp
      · exact addLeafDigests_mono heq _ (by rw [pinsert_isSome_iff]; exact Or.inr rfl)
      · exact ih heq p hp
    | some d =>
      simp only [hm] at heq
      by_cases hd : d = ld
      · rw [if_pos hd] at heq
        rcases hp with rfl | hp
        · exact addLeafDigests_mono heq _ (by rw [hm]; rfl)
        · exact ih heq p hp
      · rw [if_neg hd] at heq
        exact absurd heq (by simp)

/-! ### `processLevel` lemmas -/

theorem processLevel_mono {hash : D → D → D} :
    ∀ {ps : List Nat} {m m' : Nat → Option D},
      processLevel hash m ps = some m' → ∀ j, (m j).isSome → (m' j).isSome := by
  intro ps
  induction ps with
  | nil =>
    intro m m' heq j hj
    simp only [processLevel] at heq
    rw [← Option.some_inj.mp heq]
    exact hj
  | cons p rest ih =>
    intro m m' heq j hj
    simp only [processLevel] at heq
    by_cases hp : (m p).isSome
    · rw [if_pos hp] at heq
      exact absurd heq (by simp)
    · rw [if_neg hp] at heq
      cases hl : m (p * 2) with
      | none =>
        simp only [hl] at heq
        exact absurd heq (by simp)
      | some l =>
        cases hr : m (p * 2 ^^^ 1) with
        | none =>
          simp only [hl, hr] at heq
          exact absurd heq (by simp)
        | some r =>
          simp only [hl, hr] at heq
          exact ih heq j (by rw [pinsert_isSome_iff]; exact Or.inl hj)

theorem processLevel_isSome_of_mem {hash : D → D → D} :
    ∀ {ps : List Nat} {m m' : Nat → Option D},
      processLevel hash m ps = some m' → ∀ p ∈ ps, (m' p).isSome := by
  intro ps
  induction ps with
  | nil =>
    intro m m' _ p hp
    simp at hp
  | cons q rest ih =>
    intro m m' heq p hp
    simp only [processLevel] at heq
    by_cases hq : (m q).isSome
    · rw [if_pos hq] at heq
      exact absurd heq (by simp)
    · rw [if_neg hq] at heq
      cases hl : m (q * 2) with
      | none =>
        simp only [hl] at heq
        exact absurd heq (by simp)
      | some l =>
        cases hr : m (q * 2 ^^^ 1) with
        | none =>
          simp only [hl, hr] at heq
          exact absurd heq (by simp)
        | some r =>
          simp only [hl, hr] at heq
          rw [List.mem_cons] at hp
          rcases hp with rfl | hp
          · exact processLevel_mono heq _ (by rw [pinsert_isSome_iff]; exact Or.inr rfl)
          · exact ih heq p hp

theorem processLevel_honest {hash : D → D → D} (nd : Nat → D) :
    ∀ (ps : List Nat) (m : Nat → Option D),
      ps.Nodup →
      (∀ j x, m j = some x → x = nd j) →
      (∀ p ∈ ps, m p = none) →
      (∀ p ∈ ps, (m (p * 2)).isSome ∧ (m (p * 2 ^^^ 1)).isSome) →
      (∀ p ∈ ps, nd p = hash (nd (p * 2)) (nd (p * 2 ^^^ 1))) →
      ∃ m', processLevel hash m ps = some m' ∧
        (∀ j x, m' j = some x → x = nd j) ∧
        (∀ j, (m' j).isSome ↔ ((m j).isSome ∨ j ∈ ps)) := by
  intro ps
  induction ps with
  | nil =>
    intro m _ htr _ _ _
    exact ⟨m, rfl, htr, by simp⟩
  | cons p rest ih =>
    intro m hnd htr hnone hch hrec
    rw [List.nodup_cons] at hnd
    rw [processLevel]
    have hmp : m p = none := hnone p (List.mem_cons_self _ _)
    rw [if_neg (by rw [hmp]; simp)]
    obtain ⟨hcl, hcr⟩ := hch p (List.mem_cons_self _ _)
    obtain ⟨l, hl⟩ := Option.isSome_iff_exists.mp hcl
    obtain ⟨r, hr⟩ := Option.isSome_iff_exists.mp hcr
    rw [hl, hr]
    have hlv : l = nd (p * 2) := htr _ _ hl
    have hrv : r = nd (p * 2 ^^^ 1) := htr _ _ hr
    have hins : hash l r = nd p := by
      rw [hlv, hrv, ← hrec p (List.mem_cons_self _ _)]
    have htr2 : ∀ j x, pinsert m p (hash l r) j = some x → x = nd j := by
      intro j x hx
      unfold pinsert at hx
      by_cases hj : j = p
      · rw [if_pos hj] at hx
        rw [hj, ← hins]
        exact (Option.some_inj.mp hx).symm
      · rw [if_neg hj] at hx
        exact htr j x hx
    have hnone2 : ∀ q ∈ rest, pinsert m p (hash l r) q = none := by
      intro q hq
      unfold pinsert
      rw [if_neg (by rintro rfl; exact hnd.1 hq)]
      exact hnone q (List.mem_cons_of_mem _ hq)
    have hch2 : ∀ q ∈ rest,
        ((pinsert m p (hash l r)) (q * 2)).isSome ∧
        ((pinsert m p (hash l r)) (q * 2 ^^^ 1)).isSome := by
      intro q hq
      obtain ⟨h1, h2⟩ := hch q (List.mem_cons_of_mem _ hq)
      constructor
      · rw [pinsert_isSome_iff]; exact Or.inl h1
      · rw [pinsert_isSome_iff]; exact Or.inl h2
    obtain ⟨m', heq, htr3, hdom⟩ := ih (pinsert m p (hash l r)) hnd.2 htr2 hnone2 hch2
      (fun q hq => hrec q (List.mem_cons_of_mem _ hq))
    refine ⟨m', heq, htr3, ?_⟩
    intro j
    rw [hdom j, pinsert_isSome_iff, List.mem_cons]
    tauto

/-! ### `runRounds` lemmas -/

theorem runRounds_mono {hash : D → D → D} :
    ∀ {r : Nat} {ps : List Nat} {m m' : Nat → Option D},
      runRounds hash r m ps = some m' → ∀ j, (m j).isSome → (m' j).isSome := by
  intro r
  induction r with
  | zero =>
    intro ps m m' heq j hj
    simp only [runRounds] at heq
    rw [← Option.some_inj.mp heq]
    exact hj
  | succ t ih =>
    intro ps m m' heq j hj
    simp only [runRounds] at heq
    cases hpl : processLevel hash m ps with
    | none =>
      simp only [hpl] at heq
      exact absurd heq (by simp)
    | some m2 =>
      simp only [hpl] at heq
      exact ih heq j (processLevel_mono hpl j hj)

theorem runRounds_isSome_div {hash : D → D → D} :
    ∀ (r : Nat) {ps : List Nat} {m m' : Nat → Option D},
      runRounds hash (r + 1) m ps = some m' → ∀ x ∈ ps, (m' (x / 2 ^ r)).isSome := by
  intro r
  induction r with
  | zero =>
    intro ps m m' heq x hx
    simp only [runRounds] at heq
    cases hpl : processLevel hash m ps with
    | none =>
      simp only [hpl] at heq
      exact absurd heq (by simp)
    | some m2 =>
      simp only [hpl] at heq
      rw [← Option.some_inj.mp heq]
      simpa using processLevel_isSome_of_mem hpl x hx
  | succ t ih =>
    intro ps m m' heq x hx
    simp only [runRounds] at heq
    cases hpl : processLevel hash m ps with
    | none =>
      simp only [hpl] at heq
      exact absurd heq (by simp)
    | some m2 =>
      simp only [hpl] at heq
      have hx2 : x / 2 ∈ dedupAdj (ps.map (fun i => i / 2)) := by
        rw [mem_dedupAdj, List.mem_map]
        exact ⟨x, hx, rfl⟩
      have hconc := ih heq (x / 2) hx2
      rwa [div_two_div_pow] at hconc

theorem div_pow_div_two (n k : Nat) : n / 2 ^ k / 2 = n / 2 ^ (k + 1) := by
  rw [Nat.div_div_eq_div_mul, Nat.pow_succ]

/-- The main completeness induction for the bottom-up hashing rounds of
`verify_authentication_structure` on honest data: `nd` is any node-value
assignment satisfying the Merkle recurrence on internal nodes, `A` the
authentication-structure index set, and the partial map starts out holding
exactly the `A`-nodes and the ancestors of the opened leaves up to level `t`,
all with their true values.  After `r = h - t` further rounds the map still
holds only true values and covers all ancestors up to the root. -/
theorem runRounds_honest {hash : D → D → D} (nd : Nat → D) (h : Nat) (hh : h ≤ 62)
    (lidx : List Nat) (hvalid : ∀ li ∈ lidx, li < 2 ^ h)
    (hrec : ∀ i, 1 ≤ i → i < 2 ^ h → nd i = hash (nd (2 * i)) (nd (2 * i + 1)))
    (A : List Nat)
    (hA : ∀ j, j ∈ A ↔ (j ∈ neededList (2 ^ h) lidx ∧ j ∉ computableList (2 ^ h) lidx)) :
    ∀ (r t : Nat), r + t = h →
    ∀ (m : Nat → Option D) (ps : List Nat),
      (∀ j x, m j = some x → x = nd j) →
      (∀ j, (m j).isSome ↔ (j ∈ A ∨ ∃ li ∈ lidx, ∃ k, k ≤ t ∧ (li + 2 ^ h) / 2 ^ k = j)) →
      ps.Sorted (· ≤ ·) → ps.Nodup →
      (∀ j, j ∈ ps ↔ ∃ li ∈ lidx, (li + 2 ^ h) / 2 ^ (t + 1) = j) →
      ∃ m', runRounds hash r m ps = some m' ∧
        (∀ j x, m' j = some x → x = nd j) ∧
        (∀ j, (m' j).isSome ↔
          (j ∈ A ∨ ∃ li ∈ lidx, ∃ k, k ≤ t + r ∧ (li + 2 ^ h) / 2 ^ k = j)) := by
  have hmod : ∀ li ∈ lidx, (li + 2 ^ h) % U64 = li + 2 ^ h := by
    intro li hli
    apply Nat.mod_eq_of_lt
    have h1 := hvalid li hli
    have h2 : (2 : Nat) ^ h ≤ 2 ^ 62 := Nat.pow_le_pow_right (by omega) hh
    have h3 : (2 : Nat) ^ 62 * 2 ≤ 2 ^ 64 := by
      have : (2 : Nat) ^ 63 ≤ 2 ^ 64 := Nat.pow_le_pow_right (by omega) (by omega)
      have h63 : (2 : Nat) ^ 63 = 2 ^ 62 * 2 := Nat.pow_succ 2 62
      omega
    unfold U64
    omega
  have hbounds : ∀ li ∈ lidx, 2 ^ h ≤ li + 2 ^ h ∧ li + 2 ^ h < 2 ^ (h + 1) := by
    intro li hli
    have h1 := hvalid li hli
    have h2 : (2 : Nat) ^ (h + 1) = 2 ^ h * 2 := Nat.pow_succ 2 h
    omega
  intro r
  induction r with
  | zero =>
    intro t _ m ps htr hdom _ _ _
    refine ⟨m, by simp only [runRounds], htr, ?_⟩
    intro j
    exact hdom j
  | succ r ih =>
    intro t hrt m ps htr hdom hsorted hnodup hps
    have hth : t + 1 ≤ h := by omega
    -- every frontier parent is absent from the map
    have hnone : ∀ p ∈ ps, m p = none := by
      intro p hp
      rw [← Option.not_isSome_iff_eq_none]
      intro hsome
      obtain ⟨li, hli, heq⟩ := (hps p).mp hp
      obtain ⟨hn1, hn2⟩ := hbounds li hli
      have hint := div_pow_interval hth hn1 hn2
      rw [heq] at hint
      rcases (hdom p).mp hsome with hpA | ⟨li2, hli2, k, hk, hkeq⟩
      · obtain ⟨hneed, hcomp⟩ := (hA p).mp hpA
        by_cases h1p : 1 < p
        · apply hcomp
          rw [mem_computableList]
          refine ⟨li, hli, h1p, t + 1, ?_⟩
          rw [hmod li hli]
          exact heq
        · have hp1 : p = 1 := by
            have hpos : (0 : Nat) < 2 ^ (h - (t + 1)) := Nat.pos_pow_of_pos _ (by omega)
            omega
          rw [mem_neededList] at hneed
          obtain ⟨li3, hli3, x, ⟨h1x, _⟩, hx1⟩ := hneed
          have hx0 : x = 0 := by
            have hxx : x = p ^^^ 1 := by rw [← hx1, Nat.xor_cancel_right]
            rw [hp1] at hxx
            simpa using hxx
          omega
      · obtain ⟨hn1b, hn2b⟩ := hbounds li2 hli2
        have hint2 := div_pow_interval (show k ≤ h by omega) hn1b hn2b
        rw [hkeq] at hint2
        have hcontra : h - k = h - (t + 1) := dyadic_block_unique hint2.1 hint2.2 hint.1 hint.2
        omega
    -- both children of every frontier parent are present
    have hch : ∀ p ∈ ps, (m (p * 2)).isSome ∧ (m (p * 2 ^^^ 1)).isSome := by
      intro p hp
      obtain ⟨li, hli, heq⟩ := (hps p).mp hp
      obtain ⟨hn1, hn2⟩ := hbounds li hli
      have hcp : (li + 2 ^ h) / 2 ^ t / 2 = p := by
        rw [div_pow_div_two]
        exact heq
      have hcint := div_pow_interval (show t ≤ h by omega) hn1 hn2
      have hht : 1 ≤ h - t := by omega
      have hc2 : 2 ≤ (li + 2 ^ h) / 2 ^ t := by
        have hp2 : (2 : Nat) ≤ 2 ^ (h - t) := by
          calc (2 : Nat) = 2 ^ 1 := rfl
            _ ≤ 2 ^ (h - t) := Nat.pow_le_pow_right (by omega) hht
        omega
      have hcsome : (m ((li + 2 ^ h) / 2 ^ t)).isSome := by
        rw [hdom]
        exact Or.inr ⟨li, hli, t, by omega, rfl⟩
      have hsint := xor_one_mem_interval hht hcint.1 hcint.2
      have hssome : (m ((li + 2 ^ h) / 2 ^ t ^^^ 1)).isSome := by
        by_cases hs : ((li + 2 ^ h) / 2 ^ t ^^^ 1) ∈ computableList (2 ^ h) lidx
        · rw [mem_computableList] at hs
          obtain ⟨li2, hli2, h1s, k, hks⟩ := hs
          rw [hmod li2 hli2] at hks
          obtain ⟨hn1b, hn2b⟩ := hbounds li2 hli2
          have hkt : k = t :=
            ancestor_level_unique hn1b hn2b (by omega)
              (by rw [hks]; exact hsint.1) (by rw [hks]; exact hsint.2)
          rw [hdom]
          rw [hkt] at hks
          exact Or.inr ⟨li2, hli2, t, by omega, hks⟩
        · rw [hdom]
          left
          rw [hA]
          constructor
          · rw [mem_neededList]
            refine ⟨li, hli, (li + 2 ^ h) / 2 ^ t, ⟨by omega, t, ?_⟩, rfl⟩
            rw [hmod li hli]
          · exact hs
      have e1 : p * 2 = 2 * p := Nat.mul_comm p 2
      rcases child_sibling_cases hcp with ⟨hcc, hcs⟩ | ⟨hcc, hcs⟩
      · constructor
        · rw [e1, ← hcc]
          exact hcsome
        · rw [e1, two_mul_xor_one, ← hcs]
          exact hssome
      · constructor
        · rw [e1, ← hcs]
          exact hssome
        · rw [e1, two_mul_xor_one, ← hcc]
          exact hcsome
    -- the Merkle recurrence holds at every frontier parent
    have hrecp : ∀ p ∈ ps, nd p = hash (nd (p * 2)) (nd (p * 2 ^^^ 1)) := by
      intro p hp
      obtain ⟨li, hli, heq⟩ := (hps p).mp hp
      obtain ⟨hn1, hn2⟩ := hbounds li hli
      have hint := div_pow_interval hth hn1 hn2
      rw [heq] at hint
      have h1 : 1 ≤ p := by
        have hpos : (0 : Nat) < 2 ^ (h - (t + 1)) := Nat.pos_pow_of_pos _ (by omega)
        omega
      have h2 : p < 2 ^ h := by
        have hle : (2 : Nat) ^ (h - (t + 1) + 1) ≤ 2 ^ h := Nat.pow_le_pow_right (by omega) (by omega)
        omega
      rw [Nat.mul_comm p 2, two_mul_xor_one]
      exact hrec p h1 h2
    obtain ⟨m2, hpl, htr2, hdom2⟩ := processLevel_honest nd ps m hnodup htr hnone hch hrecp
    have hdomN : ∀ j, (m2 j).isSome ↔
        (j ∈ A ∨ ∃ li ∈ lidx, ∃ k, k ≤ t + 1 ∧ (li + 2 ^ h) / 2 ^ k = j) := by
      intro j
      rw [hdom2 j, hdom j, hps j]
      constructor
      · rintro ((hjA | ⟨li, hli, k, hk, hkeq⟩) | ⟨li, hli, hkeq⟩)
        · exact Or.inl hjA
        · exact Or.inr ⟨li, hli, k, by omega, hkeq⟩
        · exact Or.inr ⟨li, hli, t + 1, by omega, hkeq⟩
      · rintro (hjA | ⟨li, hli, k, hk, hkeq⟩)
        · exact Or.inl (Or.inl hjA)
        · by_cases hkt : k ≤ t
          · exact Or.inl (Or.inr ⟨li, hli, k, hkt, hkeq⟩)
          · have hk1 : k = t + 1 := by omega
            subst hk1
            exact Or.inr ⟨li, hli, hkeq⟩
    have hsorted2 : (ps.map (fun i => i / 2)).Sorted (· ≤ ·) :=
      List.Pairwise.map (fun i => i / 2) (fun a b hab => Nat.div_le_div_right hab) hsorted
    have hps2 : ∀ j, j ∈ dedupAdj (ps.map (fun i => i / 2)) ↔
        ∃ li ∈ lidx, (li + 2 ^ h) / 2 ^ (t + 1 + 1) = j := by
      intro j
      rw [mem_dedupAdj, List.mem_map]
      constructor
      · rintro ⟨x, hx, rfl⟩
        obtain ⟨li, hli, hkeq⟩ := (hps x).mp hx
        refine ⟨li, hli, ?_⟩
        rw [← div_pow_div_two, hkeq]
      · rintro ⟨li, hli, hkeq⟩
        refine ⟨(li + 2 ^ h) / 2 ^ (t + 1), (hps _).mpr ⟨li, hli, rfl⟩, ?_⟩
        rw [div_pow_div_two]
        exact hkeq
    obtain ⟨m', hrun, htr3, hdom3⟩ := ih (t + 1) (by omega) m2
      (dedupAdj (ps.map (fun i => i / 2))) htr2 hdomN
      (sorted_le_dedupAdj hsorted2) (nodup_dedupAdj hsorted2) hps2
    refine ⟨m', ?_, htr3, ?_⟩
    · simp only [runRounds, hpl]
      exact hrun
    · intro j
      rw [hdom3 j]
      constructor
      · rintro (hjA | ⟨li, hli, k, hk, hkeq⟩)
        · exact Or.inl hjA
        · exact Or.inr ⟨li, hli, k, by omega, hkeq⟩
      · rintro (hjA | ⟨li, hli, k, hk, hkeq⟩)
        · exact Or.inl hjA
        · exact Or.inr ⟨li, hli, k, by omega, hkeq⟩

/-- Completeness of `verify_authentication_structure` on honest inputs, for any
node-value assignment `nd` satisfying the Merkle hash recurrence on internal
nodes: verifying the true root against the true leaf digests and the true
authentication structure succeeds. -/
theorem verify_complete {hash : D → D → D} (nd : Nat → D) (h : Nat) (hh : h ≤ 62)
    (lidx : List Nat) (hne : lidx ≠ []) (hvalid : ∀ li ∈ lidx, li < 2 ^ h)
    (hrec : ∀ i, 1 ≤ i → i < 2 ^ h → nd i = hash (nd (2 * i)) (nd (2 * i + 1))) :
    verifyAuthenticationStructure hash (nd 1) h lidx
      (lidx.map (fun i => nd (i + 2 ^ h)))
      ((authIdxList (2 ^ h) lidx).map nd) = some true := by
  have hmod64 : h % 64 = h := Nat.mod_eq_of_lt (by omega)
  have hshift : (1 : Nat) <<< (h % 64) = 2 ^ h := by
    rw [hmod64, Nat.shiftLeft_eq, Nat.one_mul]
  have hp63 : (2 : Nat) ^ (h + 1) ≤ 2 ^ 63 := Nat.pow_le_pow_right (by omega) (by omega)
  have hp64 : (2 : Nat) ^ 63 < 2 ^ 64 := Nat.pow_lt_pow_right (by omega) (by omega)
  have hNN : 2 ^ h * 2 % U64 = 2 ^ (h + 1) := by
    rw [← Nat.pow_succ]
    apply Nat.mod_eq_of_lt
    unfold U64
    omega
  have hmodv : ∀ li ∈ lidx, (li + 2 ^ h) % U64 = li + 2 ^ h := by
    intro li hli
    apply Nat.mod_eq_of_lt
    have h1 := hvalid li hli
    have h2 : (2 : Nat) ^ (h + 1) = 2 ^ h * 2 := Nat.pow_succ 2 h
    unfold U64
    omega
  have hbounds : ∀ li ∈ lidx, 2 ^ h ≤ li + 2 ^ h ∧ li + 2 ^ h < 2 ^ (h + 1) := by
    intro li hli
    have h1 := hvalid li hli
    have h2 : (2 : Nat) ^ (h + 1) = 2 ^ h * 2 := Nat.pow_succ 2 h
    omega
  have hempty : lidx.isEmpty = false := by
    cases lidx with
    | nil => exact absurd rfl hne
    | cons a t => rfl
  have hany : lidx.any (fun i => decide (2 ^ h ≤ i)) = false := by
    rw [List.any_eq_false]
    intro i hi
    simp only [decide_eq_true_eq]
    exact Nat.not_le.mpr (hvalid i hi)
  have hhalf : 2 ^ (h + 1) / 2 = 2 ^ h := by
    rw [Nat.pow_succ]
    exact Nat.mul_div_cancel _ (by omega)
  have hion : indicesOfNodesInAuthStructure (2 ^ (h + 1)) lidx
      = some (authIdxList (2 ^ h) lidx) := by
    simp only [indicesOfNodesInAuthStructure, hhalf]
    rw [if_pos]
    rw [List.all_eq_true]
    intro li hli
    simp only [decide_eq_true_eq]
    rw [hmodv li hli]
    exact (hbounds li hli).2
  -- the seeded partial map
  have hm0 : ∀ j, pmapOfList ((authIdxList (2 ^ h) lidx).zip
      ((authIdxList (2 ^ h) lidx).map nd)) j
      = if j ∈ authIdxList (2 ^ h) lidx then some (nd j) else none :=
    pmapOfList_self nd _ nodup_authIdxList
  have htr0 : ∀ j x, pmapOfList ((authIdxList (2 ^ h) lidx).zip
      ((authIdxList (2 ^ h) lidx).map nd)) j = some x → x = nd j := by
    intro j x hx
    rw [hm0 j] at hx
    by_cases hj : j ∈ authIdxList (2 ^ h) lidx
    · rw [if_pos hj] at hx
      exact (Option.some_inj.mp hx).symm
    · rw [if_neg hj] at hx
      exact absurd hx (by simp)
  have hdom0 : ∀ j, ((pmapOfList ((authIdxList (2 ^ h) lidx).zip
      ((authIdxList (2 ^ h) lidx).map nd))) j).isSome ↔ j ∈ authIdxList (2 ^ h) lidx := by
    intro j
    rw [hm0 j]
    by_cases hj : j ∈ authIdxList (2 ^ h) lidx <;> simp [hj]
  -- insert the revealed leaves
  have hps0 : lidx.zip (lidx.map (fun i => nd (i + 2 ^ h)))
      = lidx.map (fun a => (a, nd (a + 2 ^ h))) := zip_self_map _ lidx
  have hhon : ∀ p ∈ lidx.zip (lidx.map (fun i => nd (i + 2 ^ h))),
      p.2 = nd (p.1 + 2 ^ h) := by
    rw [hps0]
    intro p hp
    rw [List.mem_map] at hp
    obtain ⟨a, _, rfl⟩ := hp
    rfl
  obtain ⟨m1, hadd, htr1, hdom1⟩ := addLeafDigests_honest nd (2 ^ h)
    (lidx.zip (lidx.map (fun i => nd (i + 2 ^ h))))
    (pmapOfList ((authIdxList (2 ^ h) lidx).zip ((authIdxList (2 ^ h) lidx).map nd)))
    htr0 hhon
  have hdom1b : ∀ j, (m1 j).isSome ↔
      (j ∈ authIdxList (2 ^ h) lidx ∨
        ∃ li ∈ lidx, ∃ k, k ≤ 0 ∧ (li + 2 ^ h) / 2 ^ k = j) := by
    intro j
    rw [hdom1 j, hdom0 j]
    constructor
    · rintro (hj | ⟨p, hp, hpj⟩)
      · exact Or.inl hj
      · rw [hps0, List.mem_map] at hp
        obtain ⟨a, ha, rfl⟩ := hp
        refine Or.inr ⟨a, ha, 0, by omega, ?_⟩
        simpa using hpj
    · rintro (hj | ⟨li, hli, k, hk, hkeq⟩)
      · exact Or.inl hj
      · right
        refine ⟨(li, nd (li + 2 ^ h)), ?_, ?_⟩
        · rw [hps0, List.mem_map]
          exact ⟨li, hli, rfl⟩
        · have hk0 : k = 0 := by omega
          subst hk0
          simpa using hkeq
  -- the initial frontier
  have hsorted0 : (sortNat (lidx.map (fun i => (i + 2 ^ h) / 2))).Sorted (· ≤ ·) :=
    sorted_sortNat _
  have hpsmem : ∀ j, j ∈ dedupAdj (sortNat (lidx.map (fun i => (i + 2 ^ h) / 2))) ↔
      ∃ li ∈ lidx, (li + 2 ^ h) / 2 ^ (0 + 1) = j := by
    intro j
    rw [mem_dedupAdj, mem_sortNat, List.mem_map]
    constructor
    · rintro ⟨li, hli, rfl⟩
      refine ⟨li, hli, ?_⟩
      norm_num
    · rintro ⟨li, hli, hkeq⟩
      refine ⟨li, hli, ?_⟩
      simpa using hkeq
  obtain ⟨m2, hrun, htr2, hdom2⟩ := runRounds_honest nd h hh lidx hvalid hrec
    (authIdxList (2 ^ h) lidx) (fun j => mem_authIdxList) h 0 (by omega) m1
    (dedupAdj (sortNat (lidx.map (fun i => (i + 2 ^ h) / 2))))
    htr1 hdom1b (sorted_le_dedupAdj hsorted0) (nodup_dedupAdj hsorted0) hpsmem
  -- the root is present with its true value
  obtain ⟨li0, hli0⟩ := List.exists_mem_of_ne_nil lidx hne
  have h1some : (m2 1).isSome := by
    rw [hdom2 1]
    right
    refine ⟨li0, hli0, h, by omega, ?_⟩
    obtain ⟨hb1, hb2⟩ := hbounds li0 hli0
    exact leaf_div_pow_height hb1 hb2
  obtain ⟨d1, hd1⟩ := Option.isSome_iff_exists.mp h1some
  have hd1v : d1 = nd 1 := htr2 1 d1 hd1
  -- assemble the computation
  simp only [verifyAuthenticationStructure, hshift, hNN]
  rw [if_neg (show ¬(lidx.length ≠ (lidx.map (fun i => nd (i + 2 ^ h))).length) by simp)]
  rw [if_neg (show ¬(lidx.isEmpty = true) by rw [hempty]; simp)]
  rw [if_neg (show ¬(lidx.any (fun i => decide (2 ^ h ≤ i)) = true) by rw [hany]; simp)]
  simp only [hion]
  rw [if_neg (show ¬(((authIdxList (2 ^ h) lidx).map nd).length
    ≠ (authIdxList (2 ^ h) lidx).length) by simp)]
  simp only [hadd, hrun, hd1, hd1v]
  simp

/-! ### `isPowerOfTwo`, `nodeDigest`, `overwriteSlice` basics -/

theorem isPowerOfTwo_pow (k : Nat) : isPowerOfTwo (2 ^ k) = true := by
  unfold isPowerOfTwo
  rw [List.any_eq_true]
  refine ⟨k, ?_, by simp⟩
  rw [List.mem_range]
  have hlt := Nat.lt_two_pow k
  omega

theorem nodeDigest_zero {hash : D → D → D} {L : Nat} {ds : List D} {f : D} :
    nodeDigest hash L ds f 0 = f := by
  rw [nodeDigest]
  simp

theorem nodeDigest_leaf {hash : D → D → D} {L : Nat} {ds : List D} {f : D} {i : Nat}
    (h0 : i ≠ 0) (hL : L ≤ i) : nodeDigest hash L ds f i = ds.getD (i - L) f := by
  rw [nodeDigest, if_neg h0, if_pos hL]

theorem nodeDigest_internal {hash : D → D → D} {L : Nat} {ds : List D} {f : D} {i : Nat}
    (h0 : 1 ≤ i) (hL : i < L) :
    nodeDigest hash L ds f i
      = hash (nodeDigest hash L ds f (2 * i)) (nodeDigest hash L ds f (2 * i + 1)) := by
  rw [nodeDigest, if_neg (by omega), if_neg (by omega)]

theorem getD_of_getElem? {l : List D} {i : Nat} {v f : D} (h : l[i]? = some v) :
    l.getD i f = v := by
  rw [List.getD_eq_getElem?_getD, h]
  rfl

theorem overwriteSlice_length {nodes vals : List D} {start : Nat}
    (h : start + vals.length ≤ nodes.length) :
    (overwriteSlice nodes start vals).length = nodes.length := by
  unfold overwriteSlice
  simp only [List.length_append, List.length_take, List.length_drop]
  omega

theorem overwriteSlice_getElem?_left {nodes vals : List D} {start i : Nat}
    (hi : i < start) (hs : start ≤ nodes.length) :
    (overwriteSlice nodes start vals)[i]? = nodes[i]? := by
  unfold overwriteSlice
  have htl : (nodes.take start).length = start := by
    rw [List.length_take]
    omega
  rw [List.getElem?_append_left (by simp only [List.length_append, htl]; omega),
    List.getElem?_append_left (by omega : i < (nodes.take start).length),
    List.getElem?_take_of_lt hi]

theorem overwriteSlice_getElem?_mid {nodes vals : List D} {start i : Nat}
    (h1 : start ≤ i) (h2 : i < start + vals.length) (hs : start ≤ nodes.length) :
    (overwriteSlice nodes start vals)[i]? = vals[i - start]? := by
  unfold overwriteSlice
  have htl : (nodes.take start).length = start := by
    rw [List.length_take]
    omega
  rw [List.getElem?_append_left (by simp only [List.length_append, htl]; omega),
    List.getElem?_append_right (by omega : (nodes.take start).length ≤ i), htl]

theorem overwriteSlice_getElem?_right {nodes vals : List D} {start i : Nat}
    (h2 : start + vals.length ≤ i) (hs : start ≤ nodes.length) :
    (overwriteSlice nodes start vals)[i]? = nodes[i]? := by
  unfold overwriteSlice
  have htl : (nodes.take start).length = start := by
    rw [List.length_take]
    omega
  have h12 : (nodes.take start ++ vals).length = start + vals.length := by
    rw [List.length_append, htl]
  rw [List.getElem?_append_right (by omega : (nodes.take start ++ vals).length ≤ i),
    List.getElem?_drop, h12]
  congr 1
  omega

theorem refNodes_length {hash : D → D → D} {f : D} {t : List D} :
    (refNodes hash (f :: t)).length = 2 * (f :: t).length := by
  simp [refNodes]

theorem refNodes_getElem? {hash : D → D → D} {f : D} {t : List D} {i : Nat}
    (hi : i < 2 * (f :: t).length) :
    (refNodes hash (f :: t))[i]?
      = some (nodeDigest hash (f :: t).length (f :: t) f i) := by
  simp only [refNodes]
  rw [List.getElem?_map, List.getElem?_range hi]
  rfl

theorem parLevelsAux_fuel {hash : D → D → D} {f : D} :
    ∀ (f1 f2 n : Nat), n ≤ f1 → n ≤ f2 → ∀ (nodes : List D) (acc : Nat),
      parLevelsAux hash f f1 nodes n acc = parLevelsAux hash f f2 nodes n acc := by
  intro f1
  induction f1 with
  | zero =>
    intro f2 n h1 _ nodes acc
    have hn : n = 0 := by omega
    subst hn
    cases f2 with
    | zero => rfl
    | succ f2 => simp [parLevelsAux]
  | succ f1 ih =>
    intro f2 n h1 h2 nodes acc
    cases f2 with
    | zero =>
      have hn : n = 0 := by omega
      subst hn
      simp [parLevelsAux]
    | succ f2 =>
      simp only [parLevelsAux]
      by_cases hn : 16 ≤ n
      · rw [if_pos hn, if_pos hn]
        exact ih f2 (n / 2) (by omega) (by omega) _ _
      · rw [if_neg hn, if_neg hn]

/-- The recursion equation for `parLevels`, matching the source loop. -/
theorem parLevels_eq {hash : D → D → D} {f : D} (nodes : List D) (n acc : Nat) :
    parLevels hash f nodes n acc =
      if 16 ≤ n then
        parLevels hash f
          (overwriteSlice nodes n ((List.range n).map
            (fun i => hash (nodes.getD ((n + i) * 2) f) (nodes.getD ((n + i) * 2 + 1) f))))
          (n / 2) (acc + n)
      else (nodes, acc) := by
  unfold parLevels
  by_cases hn : 16 ≤ n
  · rw [if_pos hn]
    obtain ⟨m, rfl⟩ : ∃ m, n = m + 1 := ⟨n - 1, by omega⟩
    simp only [parLevelsAux, if_pos hn]
    exact parLevelsAux_fuel m ((m + 1) / 2) ((m + 1) / 2) (by omega) (Nat.le_refl _) _ _
  · rw [if_neg hn]
    cases n with
    | zero => rfl
    | succ m =>
      simp only [parLevelsAux, if_neg hn]

/-- Correctness of the level-parallel phase of `from_digests`: starting from a
node array correct on `[2n, 2L)`, it produces an array correct on `[2n', 2L)`
for some `n' < 16`, leaves the prefix `[0, 2n')` untouched, and accounts
`count_acc` so that `acc' + 2n' = acc + 2n`. -/
theorem parLevels_spec {hash : D → D → D} {f : D} {L : Nat} (nd : Nat → D)
    (hrecs : ∀ i, 1 ≤ i → i < L → nd i = hash (nd (2 * i)) (nd (2 * i + 1))) :
    ∀ (n : Nat) (nodes : List D) (acc : Nat),
      ((∃ e, n = 2 ^ e) ∨ n = 0) →
      2 * n ≤ L →
      nodes.length = 2 * L →
      (∀ i, 2 * n ≤ i → i < 2 * L → nodes[i]? = some (nd i)) →
      ∃ n2,
        n2 ≤ n ∧ n2 < 16 ∧ 2 * n2 ≤ L ∧
        (parLevels hash f nodes n acc).2 + 2 * n2 = acc + 2 * n ∧
        (parLevels hash f nodes n acc).1.length = 2 * L ∧
        (∀ i, 2 * n2 ≤ i → i < 2 * L → (parLevels hash f nodes n acc).1[i]? = some (nd i)) ∧
        (∀ i, i < 2 * n2 → (parLevels hash f nodes n acc).1[i]? = nodes[i]?) := by
  intro n
  induction n using Nat.strong_induction_on with
  | _ n ih =>
    intro nodes acc hpow hnL hlen hcorr
    by_cases h16 : 16 ≤ n
    · have hne0 : n ≠ 0 := by omega
      have hpow2 : ∃ e, n = 2 ^ e := hpow.resolve_right hne0
      obtain ⟨e, he⟩ := hpow2
      have he1 : e ≠ 0 := by
        rintro rfl
        rw [he] at h16
        simp at h16
      have hsp : (2 : Nat) ^ e = 2 ^ (e - 1) * 2 := by
        calc (2 : Nat) ^ e = 2 ^ (e - 1 + 1) := by congr 1; omega
          _ = 2 ^ (e - 1) * 2 := Nat.pow_succ 2 (e - 1)
      have hneven : 2 * (n / 2) = n := by omega
      have hhalf : n / 2 = 2 ^ (e - 1) := by omega
      have hlocval : ∀ k, k < n →
          ((List.range n).map (fun i =>
            hash (nodes.getD ((n + i) * 2) f) (nodes.getD ((n + i) * 2 + 1) f)))[k]?
          = some (nd (n + k)) := by
        intro k hk
        rw [List.getElem?_map, List.getElem?_range hk]
        simp only [Option.map_some']
        have hc1 : nodes[(n + k) * 2]? = some (nd (2 * (n + k))) := by
          rw [Nat.mul_comm]
          exact hcorr _ (by omega) (by omega)
        have hc2 : nodes[(n + k) * 2 + 1]? = some (nd (2 * (n + k) + 1)) := by
          rw [Nat.mul_comm]
          exact hcorr _ (by omega) (by omega)
        rw [getD_of_getElem? hc1, getD_of_getElem? hc2]
        congr 1
        exact (hrecs (n + k) (by omega) (by omega)).symm
      have hloclen : ((List.range n).map (fun i =>
          hash (nodes.getD ((n + i) * 2) f) (nodes.getD ((n + i) * 2 + 1) f))).length = n := by
        simp
      have hslice : n + ((List.range n).map (fun i =>
          hash (nodes.getD ((n + i) * 2) f) (nodes.getD ((n + i) * 2 + 1) f))).length
          ≤ nodes.length := by
        rw [hloclen, hlen]
        omega
      have hlen2 : (overwriteSlice nodes n ((List.range n).map (fun i =>
          hash (nodes.getD ((n + i) * 2) f) (nodes.getD ((n + i) * 2 + 1) f)))).length
          = 2 * L := by
        rw [overwriteSlice_length hslice, hlen]
      have hcorr2 : ∀ i, 2 * (n / 2) ≤ i → i < 2 * L →
          (overwriteSlice nodes n ((List.range n).map (fun i =>
            hash (nodes.getD ((n + i) * 2) f) (nodes.getD ((n + i) * 2 + 1) f))))[i]?
          = some (nd i) := by
        intro i hi1 hi2
        rw [hneven] at hi1
        by_cases hi3 : i < 2 * n
        · rw [overwriteSlice_getElem?_mid hi1 (by rw [hloclen]; omega) (by rw [hlen]; omega)]
          rw [hlocval (i - n) (by omega)]
          rw [show n + (i - n) = i by omega]
        · rw [overwriteSlice_getElem?_right (by rw [hloclen]; omega) (by rw [hlen]; omega)]
          exact hcorr i (by omega) hi2
      obtain ⟨n2, hn2n, hn2a, hn2b, hn2c, hn2d, hn2e, hn2f⟩ :=
        ih (n / 2) (by omega) _ (acc + n)
          (Or.inl ⟨e - 1, hhalf⟩) (by omega) hlen2 hcorr2
      have hstep : parLevels hash f nodes n acc
          = parLevels hash f (overwriteSlice nodes n ((List.range n).map (fun i =>
              hash (nodes.getD ((n + i) * 2) f) (nodes.getD ((n + i) * 2 + 1) f))))
            (n / 2) (acc + n) := by
        rw [parLevels_eq, if_pos h16]
      refine ⟨n2, by omega, hn2a, by omega, ?_, ?_, ?_, ?_⟩
      · rw [hstep]
        omega
      · rw [hstep]
        exact hn2d
      · intro i hi1 hi2
        rw [hstep]
        exact hn2e i hi1 hi2
      · intro i hi
        rw [hstep]
        rw [hn2f i hi]
        apply overwriteSlice_getElem?_left _ (by rw [hlen]; omega)
        omega
    · have hstep : parLevels hash f nodes n acc = (nodes, acc) := by
        rw [parLevels_eq, if_neg h16]
      refine ⟨n, Nat.le_refl _, by omega, hnL, ?_, ?_, ?_, ?_⟩
      · rw [hstep]
      · rw [hstep]
        exact hlen
      · intro i hi1 hi2
        rw [hstep]
        exact hcorr i hi1 hi2
      · intro i _
        rw [hstep]

/-- Correctness of the sequential tail loop of `from_digests`. -/
theorem seqLoop_spec {hash : D → D → D} {f : D} {L : Nat} (nd : Nat → D)
    (hrecs : ∀ i, 1 ≤ i → i < L → nd i = hash (nd (2 * i)) (nd (2 * i + 1))) :
    ∀ (k : Nat) (nodes : List D),
      nodes.length = 2 * L → k ≤ L →
      (∀ i, k ≤ i → i < 2 * L → nodes[i]? = some (nd i)) →
      (seqLoop hash f nodes k).length = 2 * L ∧
      (∀ i, 1 ≤ i → i < 2 * L → (seqLoop hash f nodes k)[i]? = some (nd i)) ∧
      (seqLoop hash f nodes k)[0]? = nodes[0]? := by
  intro k
  induction k with
  | zero =>
    intro nodes hlen _ hcorr
    refine ⟨hlen, ?_, rfl⟩
    intro i hi1 hi2
    exact hcorr i (by omega) hi2
  | succ j ihj =>
    cases j with
    | zero =>
      intro nodes hlen _ hcorr
      refine ⟨hlen, ?_, rfl⟩
      intro i hi1 hi2
      exact hcorr i (by omega) hi2
    | succ j0 =>
      intro nodes hlen hkL hcorr
      have hj1L : j0 + 1 < L := by omega
      have hch1 : nodes[(j0 + 1) * 2]? = some (nd (2 * (j0 + 1))) := by
        rw [Nat.mul_comm]
        exact hcorr _ (by omega) (by omega)
      have hch2 : nodes[(j0 + 1) * 2 + 1]? = some (nd (2 * (j0 + 1) + 1)) := by
        rw [Nat.mul_comm]
        exact hcorr _ (by omega) (by omega)
      have hval : hash (nodes.getD ((j0 + 1) * 2) f) (nodes.getD ((j0 + 1) * 2 + 1) f)
          = nd (j0 + 1) := by
        rw [getD_of_getElem? hch1, getD_of_getElem? hch2]
        exact (hrecs (j0 + 1) (by omega) (by omega)).symm
      have hlen1 : (nodes.set (j0 + 1)
          (hash (nodes.getD ((j0 + 1) * 2) f) (nodes.getD ((j0 + 1) * 2 + 1) f))).length
          = 2 * L := by
        rw [List.length_set]
        exact hlen
      have hcorr1 : ∀ i, j0 + 1 ≤ i → i < 2 * L →
          (nodes.set (j0 + 1)
            (hash (nodes.getD ((j0 + 1) * 2) f) (nodes.getD ((j0 + 1) * 2 + 1) f)))[i]?
          = some (nd i) := by
        intro i hi1 hi2
        by_cases hij : i = j0 + 1
        · subst hij
          rw [List.getElem?_set_self (by omega)]
          rw [hval]
        · rw [List.getElem?_set_ne (by omega)]
          exact hcorr i (by omega) hi2
      obtain ⟨hl, hc, h0⟩ := ihj _ hlen1 (by omega) hcorr1
      rw [seqLoop]
      refine ⟨hl, hc, ?_⟩
      rw [h0, List.getElem?_set_ne (by omega)]

/-- `from_digests` on a power-of-two-length input produces exactly the
reference node array `refNodes`. -/
theorem fromDigests_spec {hash : D → D → D} {ds : List D} {h : Nat}
    (hlen : ds.length = 2 ^ h) :
    fromDigests hash ds = some (refNodes hash ds) := by
  have hpos : (0 : Nat) < 2 ^ h := Nat.pos_pow_of_pos _ (by omega)
  cases ds with
  | nil =>
    exfalso
    have hpos : (0 : Nat) < 2 ^ h := Nat.pos_pow_of_pos _ (by omega)
    simp at hlen
    omega
  | cons f t =>
    have hpow : isPowerOfTwo (f :: t).length = true := by
      rw [hlen]
      exact isPowerOfTwo_pow h
    have hL1 : 1 ≤ (f :: t).length := by simp
    simp only [fromDigests, hpow, if_true]
    have hrecs : ∀ i, 1 ≤ i → i < (f :: t).length →
        nodeDigest hash (f :: t).length (f :: t) f i
          = hash (nodeDigest hash (f :: t).length (f :: t) f (2 * i))
                 (nodeDigest hash (f :: t).length (f :: t) f (2 * i + 1)) := by
      intro i h1 h2
      exact nodeDigest_internal h1 h2
    have hlen0 : (List.replicate (f :: t).length f ++ f :: t).length
        = 2 * (f :: t).length := by
      simp
      omega
    have hcorr0 : ∀ i, 2 * ((f :: t).length / 2) ≤ i → i < 2 * (f :: t).length →
        (List.replicate (f :: t).length f ++ f :: t)[i]?
          = some (nodeDigest hash (f :: t).length (f :: t) f i) := by
      intro i hi1 hi2
      by_cases hiL : (f :: t).length ≤ i
      · rw [List.getElem?_append_right (by simpa using hiL)]
        have hib : i - (f :: t).length < (f :: t).length := by omega
        rw [List.length_replicate]
        rw [List.getElem?_eq_getElem hib]
        rw [nodeDigest_leaf (by omega) hiL]
        congr 1
        exact (List.getD_eq_getElem (f :: t) f hib).symm
      · push_neg at hiL
        cases h with
        | zero =>
          have hLeq : (f :: t).length = 1 := by rw [hlen]; rfl
          have hi0 : i = 0 := by omega
          subst hi0
          rw [List.getElem?_append_left (by simp)]
          rw [List.getElem?_replicate_of_lt (by omega)]
          rw [nodeDigest_zero]
        | succ h2 =>
          exfalso
          have hev : (2 : Nat) ^ (h2 + 1) = 2 ^ h2 * 2 := Nat.pow_succ 2 h2
          omega
    have hpowL : ((∃ e, (f :: t).length / 2 = 2 ^ e) ∨ (f :: t).length / 2 = 0) := by
      cases h with
      | zero =>
        right
        rw [hlen]
        rfl
      | succ h2 =>
        left
        refine ⟨h2, ?_⟩
        rw [hlen]
        have hev : (2 : Nat) ^ (h2 + 1) = 2 ^ h2 * 2 := Nat.pow_succ 2 h2
        omega
    have h2nL : 2 * ((f :: t).length / 2) ≤ (f :: t).length := by omega
    obtain ⟨n2, hn2n, hn2a, hn2b, hn2c, hn2d, hn2e, hn2f⟩ :=
      parLevels_spec (f := f) (L := (f :: t).length)
        (nodeDigest hash (f :: t).length (f :: t) f)
        hrecs ((f :: t).length / 2)
        (List.replicate (f :: t).length f ++ f :: t) 0 hpowL h2nL hlen0 hcorr0
    clear hpowL hcorr0
    have hkL : (f :: t).length
        - (parLevels hash f (List.replicate (f :: t).length f ++ f :: t)
            ((f :: t).length / 2) 0).2 ≤ (f :: t).length := by omega
    have h2n2k : 2 * n2 ≤ (f :: t).length
        - (parLevels hash f (List.replicate (f :: t).length f ++ f :: t)
            ((f :: t).length / 2) 0).2 := by omega
    have hcorrK : ∀ i, (f :: t).length
        - (parLevels hash f (List.replicate (f :: t).length f ++ f :: t)
            ((f :: t).length / 2) 0).2 ≤ i → i < 2 * (f :: t).length →
        (parLevels hash f (List.replicate (f :: t).length f ++ f :: t)
          ((f :: t).length / 2) 0).1[i]?
          = some (nodeDigest hash (f :: t).length (f :: t) f i) := by
      intro i hi1 hi2
      exact hn2e i (by omega) hi2
    obtain ⟨hsl, hsc, hs0⟩ := seqLoop_spec (f := f) (L := (f :: t).length)
      (nodeDigest hash (f :: t).length (f :: t) f) hrecs
      ((f :: t).length
        - (parLevels hash f (List.replicate (f :: t).length f ++ f :: t)
            ((f :: t).length / 2) 0).2)
      (parLevels hash f (List.replicate (f :: t).length f ++ f :: t)
        ((f :: t).length / 2) 0).1 hn2d hkL hcorrK
    congr 1
    apply List.ext_getElem?
    intro i
    by_cases hi : i < 2 * (f :: t).length
    · rcases Nat.eq_zero_or_pos i with rfl | hip
      · rw [refNodes_getElem? hi, hs0]
        by_cases hn20 : n2 = 0
        · rw [hn2e 0 (by omega) (by omega), nodeDigest_zero]
        · rw [hn2f 0 (by omega)]
          rw [List.getElem?_append_left (by simp)]
          rw [List.getElem?_replicate_of_lt (by omega)]
          rw [nodeDigest_zero]
      · rw [refNodes_getElem? hi, hsc i (by omega) hi]
    · rw [List.getElem?_eq_none (by omega : (seqLoop hash f
        (parLevels hash f (List.replicate (f :: t).length f ++ f :: t)
          ((f :: t).length / 2) 0).1
        ((f :: t).length
          - (parLevels hash f (List.replicate (f :: t).length f ++ f :: t)
              ((f :: t).length / 2) 0).2)).length ≤ i)]
      rw [List.getElem?_eq_none (by rw [refNodes_length]; omega)]

/-! ### Bridging lemmas towards the claim theorems -/

theorem pow_le_u64 {L : Nat} (hL : L ≤ 2 ^ 62) {x : Nat} (hx : x < 2 * L) : x < U64 := by
  have h63 : (2 : Nat) ^ 63 = 2 ^ 62 * 2 := Nat.pow_succ 2 62
  have h64 : (2 : Nat) ^ 64 = 2 ^ 63 * 2 := Nat.pow_succ 2 63
  unfold U64
  omega

/-- The validity `assert!` of `indices_of_nodes_in_authentication_structure`
passes whenever all leaf indices are valid and the tree is representable. -/
theorem indicesOfNodes_of_valid {L : Nat} (hL : L ≤ 2 ^ 62) {lidx : List Nat}
    (hvalid : ∀ li ∈ lidx, li < L) :
    indicesOfNodesInAuthStructure (2 * L) lidx = some (authIdxList L lidx) := by
  simp only [indicesOfNodesInAuthStructure]
  have hhalf : 2 * L / 2 = L := by omega
  rw [hhalf, if_pos]
  rw [List.all_eq_true]
  intro li hli
  simp only [decide_eq_true_eq]
  have h1 := hvalid li hli
  have hmod : (li + L) % U64 = li + L := Nat.mod_eq_of_lt (pow_le_u64 hL (by omega))
  rw [hmod]
  omega

theorem mapM_eq_some_map {α β : Type} (g : α → Option β) (g2 : α → β) :
    ∀ (l : List α), (∀ a ∈ l, g a = some (g2 a)) → l.mapM g = some (l.map g2) := by
  intro l
  induction l with
  | nil => intro _; rfl
  | cons a t ih =>
    intro hall
    rw [List.mapM_cons, hall a (List.mem_cons_self _ _),
      ih (fun x hx => hall x (List.mem_cons_of_mem _ hx))]
    rfl

/-- Reduction of `verify_authentication_structure` past its input-validation
prelude, on any inputs with matching lengths, a nonempty valid index list, and
a representable height. -/
theorem verify_unfold {hash : D → D → D} (root : D) (th : Nat) (hth : th ≤ 62)
    (lidx : List Nat) (ldig auth : List D)
    (hlen : lidx.length = ldig.length) (hne : lidx ≠ [])
    (hvalid : ∀ i ∈ lidx, i < 2 ^ th) :
    verifyAuthenticationStructure hash root th lidx ldig auth =
      (if auth.length ≠ (authIdxList (2 ^ th) lidx).length then some false
       else
        match addLeafDigests (2 ^ th)
            (pmapOfList ((authIdxList (2 ^ th) lidx).zip auth)) (lidx.zip ldig) with
        | none => some false
        | some m1 =>
          match runRounds hash th m1
              (dedupAdj (sortNat (lidx.map (fun i => (i + 2 ^ th) / 2)))) with
          | none => some false
          | some m2 =>
            match m2 1 with
            | none => none
            | some d => some (decide (d = root))) := by
  have hmod64 : th % 64 = th := Nat.mod_eq_of_lt (by omega)
  have hshift : (1 : Nat) <<< (th % 64) = 2 ^ th := by
    rw [hmod64, Nat.shiftLeft_eq, Nat.one_mul]
  have hNN : 2 ^ th * 2 % U64 = 2 * 2 ^ th := by
    rw [Nat.mul_comm]
    have hp : (2 : Nat) ^ (th + 1) ≤ 2 ^ 63 := Nat.pow_le_pow_right (by omega) (by omega)
    have hpe : (2 : Nat) ^ (th + 1) = 2 ^ th * 2 := Nat.pow_succ 2 th
    have h64 : (2 : Nat) ^ 64 = 2 ^ 63 * 2 := Nat.pow_succ 2 63
    have hlt : 2 * 2 ^ th < U64 := by unfold U64; omega
    exact Nat.mod_eq_of_lt hlt
  have hempty : lidx.isEmpty = false := by
    cases lidx with
    | nil => exact absurd rfl hne
    | cons a t => rfl
  have hany : lidx.any (fun i => decide (2 ^ th ≤ i)) = false := by
    rw [List.any_eq_false]
    intro i hi
    simp only [decide_eq_true_eq]
    exact Nat.not_le.mpr (hvalid i hi)
  simp only [verifyAuthenticationStructure, hshift, hNN]
  rw [if_neg (show ¬(lidx.length ≠ ldig.length) by omega)]
  rw [if_neg (show ¬(lidx.isEmpty = true) by rw [hempty]; simp)]
  rw [if_neg (show ¬(lidx.any (fun i => decide (2 ^ th ≤ i)) = true) by rw [hany]; simp)]
  rw [indicesOfNodes_of_valid (Nat.pow_le_pow_right (by omega) hth) hvalid]

/-- `get_root` on the built tree returns node 1. -/
theorem getRoot_refNodes {hash : D → D → D} {f : D} {t : List D} :
    getRoot (refNodes hash (f :: t))
      = some (nodeDigest hash (f :: t).length (f :: t) f 1) := by
  unfold getRoot
  rw [refNodes_getElem? (by simp; omega)]

/-- `get_leaf_by_index` on the built tree returns the stored leaf, for valid
indices. -/
theorem getLeafByIndex_refNodes {hash : D → D → D} {f : D} {t : List D} {h : Nat}
    (hlen : (f :: t).length = 2 ^ h) (hh : h ≤ 62) {i : Nat} (hi : i < (f :: t).length) :
    getLeafByIndex (refNodes hash (f :: t)) i
      = some (nodeDigest hash (f :: t).length (f :: t) f (i + (f :: t).length)) := by
  have hL62 : (f :: t).length ≤ 2 ^ 62 := by
    rw [hlen]
    exact Nat.pow_le_pow_right (by omega) hh
  simp only [getLeafByIndex, refNodes_length]
  have hhalf : 2 * (f :: t).length / 2 = (f :: t).length := by omega
  rw [hhalf, if_pos (Or.inl hi)]
  have hmod : ((f :: t).length + i) % U64 = (f :: t).length + i :=
    Nat.mod_eq_of_lt (pow_le_u64 hL62 (by omega))
  rw [hmod, refNodes_getElem? (by omega)]
  rw [Nat.add_comm]

/-- `get_leaf_by_index` on the built tree panics for out-of-range indices that
do not wrap around `usize`. -/
theorem getLeafByIndex_refNodes_oob {hash : D → D → D} {f : D} {t : List D} {i : Nat}
    (hi : (f :: t).length ≤ i) (hw : (f :: t).length + i < U64) :
    getLeafByIndex (refNodes hash (f :: t)) i = none := by
  simp only [getLeafByIndex, refNodes_length]
  have hhalf : 2 * (f :: t).length / 2 = (f :: t).length := by omega
  rw [hhalf]
  by_cases h2L : 2 * (f :: t).length ≤ i
  · rw [if_pos (Or.inr h2L)]
    rw [Nat.mod_eq_of_lt hw]
    apply List.getElem?_eq_none
    rw [refNodes_length]
    omega
  · rw [if_neg (by omega)]

/-- Every authentication-structure index of a valid request addresses a proper
node strictly inside the tree: `1 < j < 2L`. -/
theorem mem_authIdxList_bound {L : Nat} (hL : L ≤ 2 ^ 62) {lidx : List Nat}
    (hvalid : ∀ li ∈ lidx, li < L) {j : Nat} (hj : j ∈ authIdxList L lidx) :
    1 < j ∧ j < 2 * L := by
  rw [mem_authIdxList] at hj
  obtain ⟨hneed, _⟩ := hj
  rw [mem_neededList] at hneed
  obtain ⟨li, hli, x, ⟨h1x, k, hk⟩, hxj⟩ := hneed
  have h1 := hvalid li hli
  have hmod : (li + L) % U64 = li + L := Nat.mod_eq_of_lt (pow_le_u64 hL (by omega))
  rw [hmod] at hk
  have hxle : x ≤ li + L := by
    rw [← hk]
    exact Nat.div_le_self _ _
  have hx2L : x < 2 * L := by omega
  constructor
  · rw [← hxj]
    exact two_le_xor_one (by omega)
  · rcases xor_one_cases x with ⟨p, hp, hpx⟩ | ⟨p, hp, hpx⟩ <;> omega

/-- `get_authentication_structure` on the built tree returns the stored
digests at the structure's indices. -/
theorem getAuth_refNodes {hash : D → D → D} {f : D} {t : List D} {h : Nat}
    (hlen : (f :: t).length = 2 ^ h) (hh : h ≤ 62) {lidx : List Nat}
    (hvalid : ∀ li ∈ lidx, li < (f :: t).length) :
    getAuthenticationStructure (refNodes hash (f :: t)) lidx
      = some ((authIdxList (f :: t).length lidx).map
          (nodeDigest hash (f :: t).length (f :: t) f)) := by
  have hL62 : (f :: t).length ≤ 2 ^ 62 := by
    rw [hlen]
    exact Nat.pow_le_pow_right (by omega) hh
  simp only [getAuthenticationStructure, refNodes_length]
  rw [indicesOfNodes_of_valid hL62 hvalid]
  exact mapM_eq_some_map _ _ _
    (fun jdx hjdx => refNodes_getElem? (mem_authIdxList_bound hL62 hvalid hjdx).2)

/-- `get_leaves_by_indices` on the built tree returns the stored leaves, for
valid indices. -/
theorem getLeaves_refNodes {hash : D → D → D} {f : D} {t : List D} {h : Nat}
    (hlen : (f :: t).length = 2 ^ h) (hh : h ≤ 62) {lidx : List Nat}
    (hvalid : ∀ li ∈ lidx, li < (f :: t).length) :
    getLeavesByIndices (refNodes hash (f :: t)) lidx
      = some (lidx.map (fun i =>
          nodeDigest hash (f :: t).length (f :: t) f (i + (f :: t).length))) := by
  unfold getLeavesByIndices
  exact mapM_eq_some_map _ _ _
    (fun i hi => getLeafByIndex_refNodes hlen hh (hvalid i hi))

/-- The authentication-structure index list is strictly sorted. -/
theorem sorted_lt_authIdxList (L : Nat) (lidx : List Nat) :
    (authIdxList L lidx).Sorted (· < ·) := by
  have hs : (authIdxList L lidx).Sorted (· ≤ ·) := sorted_authIdxList
  have hn : (authIdxList L lidx).Nodup := nodup_authIdxList
  exact (List.Pairwise.and hs hn).imp (fun h => lt_of_le_of_ne h.1 h.2)

/-- A revealed leaf's own node is never part of the authentication structure. -/
theorem leaf_not_mem_authIdxList {L : Nat} (hL : L ≤ 2 ^ 62) {lidx : List Nat}
    (hvalid : ∀ li ∈ lidx, li < L) {i : Nat} (hi : i ∈ lidx) :
    i + L ∉ authIdxList L lidx := by
  intro hmem
  rw [mem_authIdxList] at hmem
  obtain ⟨hneed, hncomp⟩ := hmem
  have hiL := hvalid i hi
  rcases Nat.lt_or_ge (i + L) 2 with h2 | h2
  · rw [mem_neededList] at hneed
    obtain ⟨li, hli, x, ⟨h1x, _⟩, hx1⟩ := hneed
    have hiL1 : i + L = 1 := by omega
    rw [hiL1] at hx1
    have hx0 : x = 0 := by
      have h := congrArg (fun y => y ^^^ 1) hx1
      simpa [Nat.xor_assoc] using h
    omega
  · apply hncomp
    rw [mem_computableList]
    refine ⟨i, hi, by omega, 0, ?_⟩
    have hmod : (i + L) % U64 = i + L :=
      Nat.mod_eq_of_lt (pow_le_u64 hL (by omega))
    rw [hmod]
    simp

/-- `verify_authentication_structure` cannot panic when the tree height is at
most 62: every execution returns a boolean. -/
theorem verify_isSome {hash : D → D → D} (root : D) (th : Nat) (hth : th ≤ 62)
    (lidx : List Nat) (ldig auth : List D) :
    (verifyAuthenticationStructure hash root th lidx ldig auth).isSome = true := by
  have hmod64 : th % 64 = th := Nat.mod_eq_of_lt (by omega)
  have hshift : (1 : Nat) <<< (th % 64) = 2 ^ th := by
    rw [hmod64, Nat.shiftLeft_eq, Nat.one_mul]
  by_cases h1 : lidx.length ≠ ldig.length
  · simp only [verifyAuthenticationStructure]
    rw [if_pos h1]
    rfl
  have h1' : lidx.length = ldig.length := by omega
  by_cases h2 : lidx = []
  · subst h2
    simp only [verifyAuthenticationStructure]
    rw [if_neg h1]
    rfl
  by_cases h3 : ∀ i ∈ lidx, i < 2 ^ th
  case neg =>
    push_neg at h3
    obtain ⟨i, hi, hige⟩ := h3
    have hany : lidx.any (fun i => decide (2 ^ th ≤ i)) = true :=
      List.any_eq_true.mpr ⟨i, hi, decide_eq_true (by omega)⟩
    simp only [verifyAuthenticationStructure, hshift]
    rw [if_neg h1, if_neg (by simpa using h2), if_pos hany]
    rfl
  case pos =>
    rw [verify_unfold root th hth lidx ldig auth h1' h2 h3]
    by_cases h4 : auth.length ≠ (authIdxList (2 ^ th) lidx).length
    · rw [if_pos h4]
      rfl
    rw [if_neg h4]
    cases hadd : addLeafDigests (2 ^ th)
        (pmapOfList ((authIdxList (2 ^ th) lidx).zip auth)) (lidx.zip ldig) with
    | none => rfl
    | some m1 =>
      show (match runRounds hash th m1
          (dedupAdj (sortNat (lidx.map (fun i => (i + 2 ^ th) / 2)))) with
        | none => some false
        | some m2 =>
          match m2 1 with
          | none => none
          | some d => some (decide (d = root))).isSome = true
      cases hrun : runRounds hash th m1
          (dedupAdj (sortNat (lidx.map (fun i => (i + 2 ^ th) / 2)))) with
      | none => rfl
      | some m2 =>
        show (match m2 1 with
          | none => none
          | some d => some (decide (d = root))).isSome = true
        have hroot : (m2 1).isSome := by
          cases lidx with
          | nil => exact absurd rfl h2
          | cons i0 rest =>
            cases ldig with
            | nil => simp at h1'
            | cons d0 rest' =>
              cases th with
              | zero =>
                have hm2 : m2 = m1 := by
                  simp only [runRounds] at hrun
                  exact (Option.some_inj.mp hrun).symm
                have hi0 : i0 < 1 := by
                  simpa using h3 i0 (List.mem_cons_self _ _)
                have hprs : ((i0, d0) : Nat × D) ∈ (i0 :: rest).zip (d0 :: rest') :=
                  List.mem_cons_self _ _
                have hsome := addLeafDigests_isSome_of_mem hadd (i0, d0) hprs
                rw [hm2]
                have hi00 : i0 = 0 := by omega
                simpa [hi00] using hsome
              | succ t =>
                have hx : (i0 + 2 ^ (t + 1)) / 2 ∈
                    dedupAdj (sortNat ((i0 :: rest).map
                      (fun i => (i + 2 ^ (t + 1)) / 2))) := by
                  rw [mem_dedupAdj, mem_sortNat]
                  exact List.mem_map.mpr ⟨i0, List.mem_cons_self _ _, rfl⟩
                have hsome := runRounds_isSome_div t hrun _ hx
                have hi0 : i0 < 2 ^ (t + 1) := h3 i0 (List.mem_cons_self _ _)
                have hdiv : (i0 + 2 ^ (t + 1)) / 2 / 2 ^ t = 1 := by
                  rw [div_two_div_pow]
                  apply leaf_div_pow_height (Nat.le_add_left _ _)
                  have hps : (2 : Nat) ^ (t + 1 + 1) = 2 ^ (t + 1) * 2 :=
                    Nat.pow_succ 2 (t + 1)
                  omega
                rwa [hdiv] at hsome
        obtain ⟨dd, hdd⟩ := Option.isSome_iff_exists.mp hroot
        rw [hdd]
        rfl

/-- A concrete injective-enough hash on `Nat` (Cantor pairing), used to
instantiate the generic development on explicit inputs. -/
def pairHash (a b : Nat) : Nat :=
  (a + b) * (a + b + 1) / 2 + b

/-! ### Further accessor lemmas -/

theorem getD_irrel {l : List D} {i : Nat} (h : i < l.length) (a b : D) :
    l.getD i a = l.getD i b := by
  rw [List.getD_eq_getElem?_getD, List.getD_eq_getElem?_getD, List.getElem?_eq_getElem h]
  rfl

/-- The built node array stores the leaves verbatim in its upper half. -/
theorem refNodes_drop {hash : D → D → D} {f : D} {t : List D} :
    (refNodes hash (f :: t)).drop (f :: t).length = f :: t := by
  have hlc : (f :: t).length = t.length + 1 := rfl
  apply List.ext_getElem?
  intro j
  rw [List.getElem?_drop]
  by_cases hj : j < (f :: t).length
  · rw [refNodes_getElem? (by omega), nodeDigest_leaf (by omega) (by omega),
      Nat.add_sub_cancel_left]
    rw [List.getElem?_eq_getElem hj]
    rw [List.getD_eq_getElem?_getD, List.getElem?_eq_getElem hj]
    rfl
  · rw [List.getElem?_eq_none (by rw [refNodes_length]; omega),
      List.getElem?_eq_none (by omega)]

/-- Opening the same leaf twice with two different digests aborts the leaf
insertion loop with `return false`, whatever the root and the structure's
digests are. -/
theorem verify_conflicting_leaf {hash : D → D → D} (nd : Nat → D) (root : D) (h : Nat)
    (hh : h ≤ 62) (i : Nat) (hi : i < 2 ^ h) (d d' : D) (hne : d ≠ d') :
    verifyAuthenticationStructure hash root h [i, i] [d, d']
      ((authIdxList (2 ^ h) [i, i]).map nd) = some false := by
  have hL62 : (2 : Nat) ^ h ≤ 2 ^ 62 := Nat.pow_le_pow_right (by omega) hh
  have hvalid : ∀ li ∈ [i, i], li < 2 ^ h := by
    intro li hli
    rcases List.mem_cons.mp hli with rfl | hli2
    · exact hi
    · rcases List.mem_cons.mp hli2 with rfl | h3
      · exact hi
      · simp at h3
  rw [verify_unfold root h hh [i, i] [d, d']
    ((authIdxList (2 ^ h) [i, i]).map nd) rfl (by simp) hvalid]
  rw [if_neg (by simp)]
  have hz : (([i, i] : List Nat).zip [d, d']) = [(i, d), (i, d')] := rfl
  rw [hz]
  have h0 : pmapOfList ((authIdxList (2 ^ h) [i, i]).zip
      ((authIdxList (2 ^ h) [i, i]).map nd)) (i + 2 ^ h) = none := by
    rw [pmapOfList_self nd _ nodup_authIdxList]
    exact if_neg (leaf_not_mem_authIdxList hL62 hvalid (by simp))
  have h1 : pinsert (pmapOfList ((authIdxList (2 ^ h) [i, i]).zip
      ((authIdxList (2 ^ h) [i, i]).map nd))) (i + 2 ^ h) d (i + 2 ^ h) = some d := by
    simp [pinsert]
  simp only [addLeafDigests, h0, h1, if_neg hne]

/-! ### The claims about the Merkle tree -/

/-- C1: Merkle round-trip.  For every leaf list whose length is `2 ^ h` with
`h ≤ 62` and every list of leaf indices below `2 ^ h` (duplicates permitted),
building the tree with `from_digests` and verifying its root against the
leaves at those indices and the structure from
`get_authentication_structure` returns `true`. -/
theorem c1_merkle_round_trip (hash : D → D → D) (ds : List D) (h : Nat) (lidx : List Nat)
    (hh : h ≤ 62) (hlen : ds.length = 2 ^ h) (hvalid : ∀ i ∈ lidx, i < 2 ^ h) :
    ((fromDigests hash ds).bind (fun nodes =>
      (getRoot nodes).bind (fun root =>
        (getLeavesByIndices nodes lidx).bind (fun ldig =>
          (getAuthenticationStructure nodes lidx).bind (fun auth =>
            verifyAuthenticationStructure hash root h lidx ldig auth)))))
      = some true := by
  cases ds with
  | nil =>
    exfalso
    have hpos : (0 : Nat) < 2 ^ h := Nat.pos_pow_of_pos _ (by omega)
    simp at hlen
    omega
  | cons f t =>
    have hvalid' : ∀ li ∈ lidx, li < (f :: t).length := by
      intro li hli
      rw [hlen]
      exact hvalid li hli
    rw [fromDigests_spec hlen]
    simp only [Option.some_bind]
    rw [getRoot_refNodes]
    simp only [Option.some_bind]
    rw [getLeaves_refNodes hlen hh hvalid']
    simp only [Option.some_bind]
    rw [getAuth_refNodes hlen hh hvalid']
    simp only [Option.some_bind]
    simp only [hlen]
    by_cases hne : lidx = []
    · subst hne
      have ha : authIdxList (2 ^ h) ([] : List Nat) = [] := rfl
      simp only [ha, List.map_nil]
      simp [verifyAuthenticationStructure]
    · exact verify_complete (fun j => nodeDigest hash (2 ^ h) (f :: t) f j) h hh lidx hne
        hvalid (fun a h1 h2 => nodeDigest_internal h1 h2)

theorem c1_witness :
    ((fromDigests pairHash [10, 11, 12, 13, 14, 15, 16, 17]).bind (fun nodes =>
      (getRoot nodes).bind (fun root =>
        (getLeavesByIndices nodes [0, 2, 2, 7]).bind (fun ldig =>
          (getAuthenticationStructure nodes [0, 2, 2, 7]).bind (fun auth =>
            verifyAuthenticationStructure pairHash root 3 [0, 2, 2, 7] ldig auth)))))
      = some true :=
  c1_merkle_round_trip pairHash [10, 11, 12, 13, 14, 15, 16, 17] 3 [0, 2, 2, 7]
    (by omega) (by decide) (by decide)

/-- C2 (amended): `verify_authentication_structure` panics when
`tree_height = 63` makes `num_leaves * 2` wrap to zero (see the
counterexample), but for every tree height up to 62 it is total: on every
root, every index list, every digest list and every structure it returns a
boolean and never panics. -/
theorem c2_verify_never_panics (hash : D → D → D) (root : D) (th : Nat)
    (lidx : List Nat) (ldig auth : List D) (hth : th ≤ 62) :
    (verifyAuthenticationStructure hash root th lidx ldig auth).isSome = true :=
  verify_isSome root th hth lidx ldig auth

theorem c2_witness :
    (verifyAuthenticationStructure pairHash 5 7 [1, 2] [3] [4, 5]).isSome = true :=
  c2_verify_never_panics pairHash 5 7 [1, 2] [3] [4, 5] (by omega)

theorem c2_counterexample :
    verifyAuthenticationStructure pairHash 0 63 [0] [0] [] = none := by
  decide

/-- C3: the authentication structure's index set is the sorted deduplicated
difference `needed \ computable`; concretely, for 8 leaves and revealed leaf
indices `[0, 2]` the node indices are `[3, 9, 11]` and the returned digests
are the stored nodes 3, 9 and 11 in that order, node 4 being excluded as
computable. -/
theorem c3_auth_structure_indices :
    (∀ (k : Nat) (lidx : List Nat), k ≤ 62 → (∀ i ∈ lidx, i < 2 ^ k) →
      indicesOfNodesInAuthStructure (2 * 2 ^ k) lidx = some (authIdxList (2 ^ k) lidx) ∧
      (authIdxList (2 ^ k) lidx).Sorted (· < ·) ∧
      (∀ j, j ∈ authIdxList (2 ^ k) lidx ↔
        j ∈ neededList (2 ^ k) lidx ∧ j ∉ computableList (2 ^ k) lidx)) ∧
    indicesOfNodesInAuthStructure 16 [0, 2] = some [3, 9, 11] ∧
    ((fromDigests pairHash [10, 11, 12, 13, 14, 15, 16, 17]).bind
        (fun ns => getAuthenticationStructure ns [0, 2])
      = some [pairHash (pairHash 14 15) (pairHash 16 17), 11, 13]) ∧
    4 ∈ computableList 8 [0, 2] ∧ 4 ∉ authIdxList 8 [0, 2] := by
  refine ⟨?_, by decide, by decide, by decide, by decide⟩
  intro k lidx hk hval
  exact ⟨indicesOfNodes_of_valid (Nat.pow_le_pow_right (by omega) hk) hval,
    sorted_lt_authIdxList _ _, fun j => mem_authIdxList⟩

/-- C6: with non-empty valid leaf indices and matching digest count, an
authentication structure whose length differs from the recomputed index
set's size (too long or too short) is rejected with `false`. -/
theorem c6_wrong_structure_length_rejected (hash : D → D → D) (root : D) (th : Nat)
    (lidx : List Nat) (ldig auth : List D) (hth : th ≤ 62)
    (hlen : lidx.length = ldig.length) (hne : lidx ≠ [])
    (hvalid : ∀ i ∈ lidx, i < 2 ^ th)
    (hneq : auth.length ≠ (authIdxList (2 ^ th) lidx).length) :
    verifyAuthenticationStructure hash root th lidx ldig auth = some false := by
  rw [verify_unfold root th hth lidx ldig auth hlen hne hvalid, if_pos hneq]

theorem c6_witness :
    verifyAuthenticationStructure pairHash 9 2 [0] [7] [5] = some false :=
  c6_wrong_structure_length_rejected pairHash 9 2 [0] [7] [5] (by omega) (by decide)
    (by decide) (by decide) (by decide)

/-- C7: duplicate-index semantics.  Opening the same leaf index twice with the
leaf's actual digest both times verifies `true`; opening it twice with two
differing digests makes verification return `false`. -/
theorem c7_duplicate_index_semantics (hash : D → D → D) (ds : List D) (h i : Nat)
    (d d' : D) (hh : h ≤ 62) (hlen : ds.length = 2 ^ h) (hi : i < 2 ^ h)
    (hd : (fromDigests hash ds).bind (fun ns => getLeafByIndex ns i) = some d)
    (hne : d ≠ d') :
    ((fromDigests hash ds).bind (fun ns =>
      (getRoot ns).bind (fun root =>
        (getAuthenticationStructure ns [i, i]).bind (fun auth =>
          verifyAuthenticationStructure hash root h [i, i] [d, d] auth))) = some true) ∧
    ((fromDigests hash ds).bind (fun ns =>
      (getRoot ns).bind (fun root =>
        (getAuthenticationStructure ns [i, i]).bind (fun auth =>
          verifyAuthenticationStructure hash root h [i, i] [d, d'] auth))) = some false) := by
  cases ds with
  | nil =>
    exfalso
    have hpos : (0 : Nat) < 2 ^ h := Nat.pos_pow_of_pos _ (by omega)
    simp at hlen
    omega
  | cons f t =>
    have hvv : ∀ li ∈ [i, i], li < 2 ^ h := by
      intro li hli
      rcases List.mem_cons.mp hli with rfl | hli2
      · exact hi
      · rcases List.mem_cons.mp hli2 with rfl | h3
        · exact hi
        · simp at h3
    have hvalid' : ∀ li ∈ [i, i], li < (f :: t).length := by
      intro li hli
      rw [hlen]
      exact hvv li hli
    rw [fromDigests_spec hlen] at hd ⊢
    simp only [Option.some_bind] at hd ⊢
    rw [getLeafByIndex_refNodes hlen hh (by rw [hlen]; exact hi)] at hd
    have hdd : d = nodeDigest hash (f :: t).length (f :: t) f (i + (f :: t).length) :=
      (Option.some_inj.mp hd).symm
    rw [getRoot_refNodes]
    simp only [Option.some_bind]
    rw [getAuth_refNodes hlen hh hvalid']
    simp only [Option.some_bind]
    subst hdd
    simp only [hlen] at hne ⊢
    constructor
    · have hvc := verify_complete (fun j => nodeDigest hash (2 ^ h) (f :: t) f j) h hh
        [i, i] (by simp) hvv (fun a h1 h2 => nodeDigest_internal h1 h2)
      simpa using hvc
    · exact verify_conflicting_leaf (nodeDigest hash (2 ^ h) (f :: t) f) _ h hh i hi _ d' hne

theorem c7_witness :
    ((fromDigests pairHash [10, 11, 12, 13]).bind (fun ns =>
      (getRoot ns).bind (fun root =>
        (getAuthenticationStructure ns [2, 2]).bind (fun auth =>
          verifyAuthenticationStructure pairHash root 2 [2, 2] [12, 12] auth)))
      = some true) ∧
    ((fromDigests pairHash [10, 11, 12, 13]).bind (fun ns =>
      (getRoot ns).bind (fun root =>
        (getAuthenticationStructure ns [2, 2]).bind (fun auth =>
          verifyAuthenticationStructure pairHash root 2 [2, 2] [12, 99] auth)))
      = some false) :=
  c7_duplicate_index_semantics pairHash [10, 11, 12, 13] 2 2 12 99 (by omega)
    (by decide) (by decide) (by decide) (by decide)

/-- C8: an empty `leaf_indices` list with an empty `leaf_digests` list is
accepted with `true` for every root, every tree height and every
authentication structure: the empty-indices early return fires before the
structure's length or contents are examined. -/
theorem c8_empty_indices_accepted (hash : D → D → D) (root : D) (treeHeight : Nat)
    (auth : List D) :
    verifyAuthenticationStructure hash root treeHeight [] [] auth = some true := by
  simp [verifyAuthenticationStructure]

/-- C9: `from_digests` equals the naive bottom-up reference construction: a
node array of length `2L`, whose slice `[L, 2L)` is the input leaves verbatim,
with `node[i] = hash(node[2i], node[2i+1])` for `1 ≤ i < L`; `get_root`
returns node 1. -/
theorem c9_from_digests_reference (hash : D → D → D) (ds : List D) (h : Nat) (d : D)
    (hlen : ds.length = 2 ^ h) :
    fromDigests hash ds = some (refNodes hash ds) ∧
    (refNodes hash ds).length = 2 * ds.length ∧
    (refNodes hash ds).drop ds.length = ds ∧
    (∀ i, 1 ≤ i → i < ds.length →
      (refNodes hash ds).getD i d
        = hash ((refNodes hash ds).getD (2 * i) d)
            ((refNodes hash ds).getD (2 * i + 1) d)) ∧
    getRoot (refNodes hash ds) = some ((refNodes hash ds).getD 1 d) := by
  cases ds with
  | nil =>
    exfalso
    have hpos : (0 : Nat) < 2 ^ h := Nat.pos_pow_of_pos _ (by omega)
    simp at hlen
    omega
  | cons f t =>
    have hlc : (f :: t).length = t.length + 1 := rfl
    refine ⟨fromDigests_spec hlen, refNodes_length, refNodes_drop, ?_, ?_⟩
    · intro i h1 h2
      rw [getD_of_getElem? (refNodes_getElem? (by omega)),
        getD_of_getElem? (refNodes_getElem? (by omega)),
        getD_of_getElem? (refNodes_getElem? (by omega))]
      exact nodeDigest_internal h1 h2
    · rw [getRoot_refNodes, getD_of_getElem? (refNodes_getElem? (by omega))]

theorem c9_witness :
    fromDigests pairHash [3, 1, 4, 1] = some (refNodes pairHash [3, 1, 4, 1]) ∧
    (refNodes pairHash [3, 1, 4, 1]).length = 2 * [3, 1, 4, 1].length ∧
    (refNodes pairHash [3, 1, 4, 1]).drop [3, 1, 4, 1].length = [3, 1, 4, 1] ∧
    (∀ i, 1 ≤ i → i < [3, 1, 4, 1].length →
      (refNodes pairHash [3, 1, 4, 1]).getD i 0
        = pairHash ((refNodes pairHash [3, 1, 4, 1]).getD (2 * i) 0)
            ((refNodes pairHash [3, 1, 4, 1]).getD (2 * i + 1) 0)) ∧
    getRoot (refNodes pairHash [3, 1, 4, 1])
      = some ((refNodes pairHash [3, 1, 4, 1]).getD 1 0) :=
  c9_from_digests_reference pairHash [3, 1, 4, 1] 2 0 (by decide)

/-- C10 (amended): on a built tree with `2 ^ h` leaves, `get_leaf_by_index`
returns the stored leaf for every index below `2 ^ h`; for an out-of-range
index it panics only as long as `first_leaf_index + index` does not overflow
`usize` — the counterexample shows a wrapping index that silently returns a
digest instead. -/
theorem c10_get_leaf_by_index_amended (hash : D → D → D) (ds : List D) (h : Nat) (d : D)
    (i j : Nat) (hh : h ≤ 62) (hlen : ds.length = 2 ^ h) (hi : i < 2 ^ h)
    (hj : 2 ^ h ≤ j) (hjw : 2 ^ h + j < 2 ^ 64) :
    (fromDigests hash ds).bind (fun ns => getLeafByIndex ns i) = some (ds.getD i d) ∧
    (fromDigests hash ds).bind (fun ns => getLeafByIndex ns j) = none := by
  cases ds with
  | nil =>
    exfalso
    have hpos : (0 : Nat) < 2 ^ h := Nat.pos_pow_of_pos _ (by omega)
    simp at hlen
    omega
  | cons f t =>
    have hlc : (f :: t).length = t.length + 1 := rfl
    rw [fromDigests_spec hlen]
    simp only [Option.some_bind]
    constructor
    · rw [getLeafByIndex_refNodes hlen hh (by omega)]
      rw [nodeDigest_leaf (by omega) (by omega), Nat.add_sub_cancel]
      rw [getD_irrel (by omega) f d]
    · exact getLeafByIndex_refNodes_oob (by omega) (by unfold U64; omega)

theorem c10_witness :
    (fromDigests pairHash [3, 1, 4, 1]).bind (fun ns => getLeafByIndex ns 2)
      = some ([3, 1, 4, 1].getD 2 0) ∧
    (fromDigests pairHash [3, 1, 4, 1]).bind (fun ns => getLeafByIndex ns 6) = none :=
  c10_get_leaf_by_index_amended pairHash [3, 1, 4, 1] 2 0 2 6 (by omega) (by decide)
    (by decide) (by decide) (by decide)

theorem c10_counterexample :
    (fromDigests pairHash [10, 20]).bind (fun ns => getLeafByIndex ns (2 ^ 64 - 2))
      = some 10 := by
  decide

end Merkle

section Tip5

/-- Modelled from the spec: the two sponge initialization modes of §3
("fixed-length domain sets the capacity words to the multiplicative identity,
variable-length domain zeroes the whole state"); the `Domain` enum itself lives
in `util_types/algebraic_hasher.rs`, which is not under `src/`. -/
inductive Domain where
  | VariableLength : Domain
  | FixedLength : Domain

/-- Modelled from the spec: the field-element interface of §2/§6 ("an integer
modulo a 64-bit prime ... supporting add/sub/mul and a handful of bit-level
accessors (raw 64/128-bit views)").  `BFieldElement` itself is defined in
`shared_math/b_field_element.rs`, which is not under `src/`, so its operations
are parameters: ring operations, the canonical constructor `new` (`ofU64`), the
raw byte view used by the S-box, and the raw 64/128-bit views plus Montgomery
reduction used by the fast linear layer. -/
structure BFieldPrims (F : Type) where
  zero : F
  one : F
  add : F → F → F
  sub : F → F → F
  mul : F → F → F
  ofU64 : Nat → F
  rawBytes : F → List Nat
  fromRawBytes : List Nat → F
  rawU128 : F → Nat
  montyred : Nat → Nat
  fromRawU64 : Nat → F

def STATE_SIZE : Nat := 16
def NUM_SPLIT_AND_LOOKUP : Nat := 4
def CAPACITY : Nat := 6
def RATE : Nat := 10
def NUM_ROUNDS : Nat := 5
def DIGEST_LENGTH : Nat := 5

/-- The 256-entry S-box lookup table of Tip5 (`LOOKUP_TABLE`). -/
def LOOKUP_TABLE : List Nat := [
  0, 7, 26, 63, 124, 215, 85, 254, 214, 228, 45, 185, 140, 173, 33, 240,
  29, 177, 176, 32, 8, 110, 87, 202, 204, 99, 150, 106, 230, 14, 235, 128,
  213, 239, 212, 138, 23, 130, 208, 6, 44, 71, 93, 116, 146, 189, 251, 81,
  199, 97, 38, 28, 73, 179, 95, 84, 152, 48, 35, 119, 49, 88, 242, 3,
  148, 169, 72, 120, 62, 161, 166, 83, 175, 191, 137, 19, 100, 129, 112, 55,
  221, 102, 218, 61, 151, 237, 68, 164, 17, 147, 46, 234, 203, 216, 22, 141,
  65, 57, 123, 12, 244, 54, 219, 231, 96, 77, 180, 154, 5, 253, 133, 165,
  98, 195, 205, 134, 245, 30, 9, 188, 59, 142, 186, 197, 181, 144, 92, 31,
  224, 163, 111, 74, 58, 69, 113, 196, 67, 246, 225, 10, 121, 50, 60, 157,
  90, 122, 2, 250, 101, 75, 178, 159, 24, 36, 201, 11, 243, 132, 198, 190,
  114, 233, 39, 52, 21, 209, 108, 238, 91, 187, 18, 104, 194, 37, 153, 34,
  200, 143, 126, 155, 236, 118, 64, 80, 172, 89, 94, 193, 135, 183, 86, 107,
  252, 13, 167, 206, 136, 220, 207, 103, 171, 160, 76, 182, 227, 217, 158, 56,
  174, 4, 66, 109, 139, 162, 184, 211, 249, 47, 125, 232, 117, 43, 16, 42,
  127, 20, 241, 25, 149, 105, 156, 51, 53, 168, 145, 247, 223, 79, 78, 226,
  15, 222, 82, 115, 70, 210, 27, 41, 1, 170, 40, 131, 192, 229, 248, 255]

/-- The `NUM_ROUNDS * STATE_SIZE` round constants of Tip5 (`ROUND_CONSTANTS`),
as the `u64` arguments of `BFieldElement::new`. -/
def ROUND_CONSTANT_VALUES : List Nat := [
  13630775303355457758, 16896927574093233874, 10379449653650130495, 1965408364413093495,
  15232538947090185111, 15892634398091747074, 3989134140024871768, 2851411912127730865,
  8709136439293758776, 3694858669662939734, 12692440244315327141, 10722316166358076749,
  12745429320441639448, 17932424223723990421, 7558102534867937463, 15551047435855531404,
  17532528648579384106, 5216785850422679555, 15418071332095031847, 11921929762955146258,
  9738718993677019874, 3464580399432997147, 13408434769117164050, 264428218649616431,
  4436247869008081381, 4063129435850804221, 2865073155741120117, 5749834437609765994,
  6804196764189408435, 17060469201292988508, 9475383556737206708, 12876344085611465020,
  13835756199368269249, 1648753455944344172, 9836124473569258483, 12867641597107932229,
  11254152636692960595, 16550832737139861108, 11861573970480733262, 1256660473588673495,
  13879506000676455136, 10564103842682358721, 16142842524796397521, 3287098591948630584,
  685911471061284805, 5285298776918878023, 18310953571768047354, 3142266350630002035,
  549990724933663297, 4901984846118077401, 11458643033696775769, 8706785264119212710,
  12521758138015724072, 11877914062416978196, 11333318251134523752, 3933899631278608623,
  16635128972021157924, 10291337173108950450, 4142107155024199350, 16973934533787743537,
  11068111539125175221, 17546769694830203606, 5315217744825068993, 4609594252909613081,
  3350107164315270407, 17715942834299349177, 9600609149219873996, 12894357635820003949,
  4597649658040514631, 7735563950920491847, 1663379455870887181, 13889298103638829706,
  7375530351220884434, 3502022433285269151, 9231805330431056952, 9252272755288523725,
  10014268662326746219, 15565031632950843234, 1209725273521819323, 6024642864597845108]

variable {F : Type}

/-- `ROUND_CONSTANTS` as field elements. -/
def ROUND_CONSTANTS (prims : BFieldPrims F) : List F :=
  ROUND_CONSTANT_VALUES.map prims.ofU64

/-- `Tip5State::new`: an all-zero state, with the capacity words (indices
`RATE..STATE_SIZE`) set to one in the fixed-length domain. -/
def tip5StateNew (prims : BFieldPrims F) : Domain → List F
  | Domain.VariableLength => List.replicate STATE_SIZE prims.zero
  | Domain.FixedLength =>
    List.replicate RATE prims.zero ++ List.replicate (STATE_SIZE - RATE) prims.one

/-- `Tip5::split_and_lookup`: replace each of the 8 raw bytes of a word through
`LOOKUP_TABLE`. -/
def splitAndLookup (prims : BFieldPrims F) (element : F) : F :=
  prims.fromRawBytes ((prims.rawBytes element).map (fun b => LOOKUP_TABLE.getD b 0))

/-- The eight constants `POWERS_OF_OMEGA_BITREVERSED` of `Tip5::ntt_noswap`. -/
def POWERS_OF_OMEGA_BITREVERSED (prims : BFieldPrims F) : List F :=
  [1, 281474976710656, 18446744069397807105, 18446742969902956801,
   17293822564807737345, 4096, 4503599626321920, 18446744000695107585].map prims.ofU64

/-- The eight constants `POWERS_OF_OMEGA_INVERSE` of `Tip5::intt_noswap`. -/
def POWERS_OF_OMEGA_INVERSE (prims : BFieldPrims F) : List F :=
  [1, 68719476736, 1099511627520, 18446744069414580225,
   18446462594437873665, 18442240469788262401, 16777216, 1152921504606846976].map prims.ofU64

/-- `Tip5::ntt_noswap`, with the four in-place butterfly stages written out as
functional rebinding (each stage's butterflies touch disjoint index pairs). -/
def ntt_noswap (prims : BFieldPrims F) (x : List F) : List F :=
  match POWERS_OF_OMEGA_BITREVERSED prims, x with
  | [p0, p1, p2, p3, p4, p5, p6, p7],
    [a0, a1, a2, a3, a4, a5, a6, a7, a8, a9, a10, a11, a12, a13, a14, a15] =>
    let b0 := prims.add a0 (prims.mul a8 prims.one)
    let b8 := prims.sub a0 (prims.mul a8 prims.one)
    let b1 := prims.add a1 (prims.mul a9 prims.one)
    let b9 := prims.sub a1 (prims.mul a9 prims.one)
    let b2 := prims.add a2 (prims.mul a10 prims.one)
    let b10 := prims.sub a2 (prims.mul a10 prims.one)
    let b3 := prims.add a3 (prims.mul a11 prims.one)
    let b11 := prims.sub a3 (prims.mul a11 prims.one)
    let b4 := prims.add a4 (prims.mul a12 prims.one)
    let b12 := prims.sub a4 (prims.mul a12 prims.one)
    let b5 := prims.add a5 (prims.mul a13 prims.one)
    let b13 := prims.sub a5 (prims.mul a13 prims.one)
    let b6 := prims.add a6 (prims.mul a14 prims.one)
    let b14 := prims.sub a6 (prims.mul a14 prims.one)
    let b7 := prims.add a7 (prims.mul a15 prims.one)
    let b15 := prims.sub a7 (prims.mul a15 prims.one)
    let c0 := prims.add b0 (prims.mul b4 p0)
    let c4 := prims.sub b0 (prims.mul b4 p0)
    let c1 := prims.add b1 (prims.mul b5 p0)
    let c5 := prims.sub b1 (prims.mul b5 p0)
    let c2 := prims.add b2 (prims.mul b6 p0)
    let c6 := prims.sub b2 (prims.mul b6 p0)
    let c3 := prims.add b3 (prims.mul b7 p0)
    let c7 := prims.sub b3 (prims.mul b7 p0)
    let c8 := prims.add b8 (prims.mul b12 p1)
    let c12 := prims.sub b8 (prims.mul b12 p1)
    let c9 := prims.add b9 (prims.mul b13 p1)
    let c13 := prims.sub b9 (prims.mul b13 p1)
    let c10 := prims.add b10 (prims.mul b14 p1)
    let c14 := prims.sub b10 (prims.mul b14 p1)
    let c11 := prims.add b11 (prims.mul b15 p1)
    let c15 := prims.sub b11 (prims.mul b15 p1)
    let d0 := prims.add c0 (prims.mul c2 p0)
    let d2 := prims.sub c0 (prims.mul c2 p0)
    let d1 := prims.add c1 (prims.mul c3 p0)
    let d3 := prims.sub c1 (prims.mul c3 p0)
    let d4 := prims.add c4 (prims.mul c6 p1)
    let d6 := prims.sub c4 (prims.mul c6 p1)
    let d5 := prims.add c5 (prims.mul c7 p1)
    let d7 := prims.sub c5 (prims.mul c7 p1)
    let d8 := prims.add c8 (prims.mul c10 p2)
    let d10 := prims.sub c8 (prims.mul c10 p2)
    let d9 := prims.add c9 (prims.mul c11 p2)
    let d11 := prims.sub c9 (prims.mul c11 p2)
    let d12 := prims.add c12 (prims.mul c14 p3)
    let d14 := prims.sub c12 (prims.mul c14 p3)
    let d13 := prims.add c13 (prims.mul c15 p3)
    let d15 := prims.sub c13 (prims.mul c15 p3)
    let e0 := prims.add d0 (prims.mul d1 p0)
    let e1 := prims.sub d0 (prims.mul d1 p0)
    let e2 := prims.add d2 (prims.mul d3 p1)
    let e3 := prims.sub d2 (prims.mul d3 p1)
    let e4 := prims.add d4 (prims.mul d5 p2)
    let e5 := prims.sub d4 (prims.mul d5 p2)
    let e6 := prims.add d6 (prims.mul d7 p3)
    let e7 := prims.sub d6 (prims.mul d7 p3)
    let e8 := prims.add d8 (prims.mul d9 p4)
    let e9 := prims.sub d8 (prims.mul d9 p4)
    let e10 := prims.add d10 (prims.mul d11 p5)
    let e11 := prims.sub d10 (prims.mul d11 p5)
    let e12 := prims.add d12 (prims.mul d13 p6)
    let e13 := prims.sub d12 (prims.mul d13 p6)
    let e14 := prims.add d14 (prims.mul d15 p7)
    let e15 := prims.sub d14 (prims.mul d15 p7)
    [e0, e1, e2, e3, e4, e5, e6, e7, e8, e9, e10, e11, e12, e13, e14, e15]
  | _, _ => x

/-- `Tip5::intt_noswap`, written out stage by stage like `ntt_noswap`. -/
def intt_noswap (prims : BFieldPrims F) (x : List F) : List F :=
  match POWERS_OF_OMEGA_INVERSE prims, x with
  | [q0, q1, q2, q3, q4, q5, q6, q7],
    [a0, a1, a2, a3, a4, a5, a6, a7, a8, a9, a10, a11, a12, a13, a14, a15] =>
    let b0 := prims.add a0 a1
    let b1 := prims.sub a0 a1
    let b2 := prims.add a2 a3
    let b3 := prims.sub a2 a3
    let b4 := prims.add a4 a5
    let b5 := prims.sub a4 a5
    let b6 := prims.add a6 a7
    let b7 := prims.sub a6 a7
    let b8 := prims.add a8 a9
    let b9 := prims.sub a8 a9
    let b10 := prims.add a10 a11
    let b11 := prims.sub a10 a11
    let b12 := prims.add a12 a13
    let b13 := prims.sub a12 a13
    let b14 := prims.add a14 a15
    let b15 := prims.sub a14 a15
    let c0 := prims.add b0 (prims.mul b2 q0)
    let c2 := prims.sub b0 (prims.mul b2 q0)
    let c4 := prims.add b4 (prims.mul b6 q0)
    let c6 := prims.sub b4 (prims.mul b6 q0)
    let c8 := prims.add b8 (prims.mul b10 q0)
    let c10 := prims.sub b8 (prims.mul b10 q0)
    let c12 := prims.add b12 (prims.mul b14 q0)
    let c14 := prims.sub b12 (prims.mul b14 q0)
    let c1 := prims.add b1 (prims.mul b3 q4)
    let c3 := prims.sub b1 (prims.mul b3 q4)
    let c5 := prims.add b5 (prims.mul b7 q4)
    let c7 := prims.sub b5 (prims.mul b7 q4)
    let c9 := prims.add b9 (prims.mul b11 q4)
    let c11 := prims.sub b9 (prims.mul b11 q4)
    let c13 := prims.add b13 (prims.mul b15 q4)
    let c15 := prims.sub b13 (prims.mul b15 q4)
    let d0 := prims.add c0 (prims.mul c4 q0)
    let d4 := prims.sub c0 (prims.mul c4 q0)
    let d8 := prims.add c8 (prims.mul c12 q0)
    let d12 := prims.sub c8 (prims.mul c12 q0)
    let d1 := prims.add c1 (prims.mul c5 q2)
    let d5 := prims.sub c1 (prims.mul c5 q2)
    let d9 := prims.add c9 (prims.mul c13 q2)
    let d13 := prims.sub c9 (prims.mul c13 q2)
    let d2 := prims.add c2 (prims.mul c6 q4)
    let d6 := prims.sub c2 (prims.mul c6 q4)
    let d10 := prims.add c10 (prims.mul c14 q4)
    let d14 := prims.sub c10 (prims.mul c14 q4)
    let d3 := prims.add c3 (prims.mul c7 q6)
    let d7 := prims.sub c3 (prims.mul c7 q6)
    let d11 := prims.add c11 (prims.mul c15 q6)
    let d15 := prims.sub c11 (prims.mul c15 q6)
    let e0 := prims.add d0 (prims.mul d8 q0)
    let e8 := prims.sub d0 (prims.mul d8 q0)
    let e1 := prims.add d1 (prims.mul d9 q1)
    let e9 := prims.sub d1 (prims.mul d9 q1)
    let e2 := prims.add d2 (prims.mul d10 q2)
    let e10 := prims.sub d2 (prims.mul d10 q2)
    let e3 := prims.add d3 (prims.mul d11 q3)
    let e11 := prims.sub d3 (prims.mul d11 q3)
    let e4 := prims.add d4 (prims.mul d12 q4)
    let e12 := prims.sub d4 (prims.mul d12 q4)
    let e5 := prims.add d5 (prims.mul d13 q5)
    let e13 := prims.sub d5 (prims.mul d13 q5)
    let e6 := prims.add d6 (prims.mul d14 q6)
    let e14 := prims.sub d6 (prims.mul d14 q6)
    let e7 := prims.add d7 (prims.mul d15 q7)
    let e15 := prims.sub d7 (prims.mul d15 q7)
    [e0, e1, e2, e3, e4, e5, e6, e7, e8, e9, e10, e11, e12, e13, e14, e15]
  | _, _ => x

/-- The per-word `SHIFTS` table of `Tip5::mds_noswap`. -/
def MDS_SHIFTS : List Nat := [4, 1, 4, 3, 3, 7, 0, 5, 1, 5, 0, 2, 6, 2, 4, 1]

/-- `Tip5::mds_noswap`: forward NTT, per-word raw-u128 shift folded through
Montgomery reduction, inverse NTT. -/
def mds_noswap (prims : BFieldPrims F) (state : List F) : List F :=
  intt_noswap prims
    (List.zipWith
      (fun e sh => prims.fromRawU64 (prims.montyred (prims.rawU128 e <<< sh)))
      (ntt_noswap prims state) MDS_SHIFTS)

/-- `Tip5::sbox_layer`: byte-table substitution on the first
`NUM_SPLIT_AND_LOOKUP` words, the degree-7 power map
(`st * (sq * qu)` with `sq = st²`, `qu = sq²`) on the rest. -/
def sbox_layer (prims : BFieldPrims F) (state : List F) : List F :=
  state.mapIdx (fun i st =>
    if i < NUM_SPLIT_AND_LOOKUP then splitAndLookup prims st
    else
      let sq := prims.mul st st
      let qu := prims.mul sq sq
      prims.mul st (prims.mul sq qu))

/-- `Tip5::round`: S-box layer, MDS layer, then round-constant addition. -/
def tip5Round (prims : BFieldPrims F) (state : List F) (roundIndex : Nat) : List F :=
  let state := sbox_layer prims state
  let state := mds_noswap prims state
  List.zipWith prims.add state
    (((ROUND_CONSTANTS prims).drop (roundIndex * STATE_SIZE)).take STATE_SIZE)

/-- `Tip5::permutation`: exactly `NUM_ROUNDS` rounds, unconditionally. -/
def tip5Permutation (prims : BFieldPrims F) (state : List F) : List F :=
  (List.range NUM_ROUNDS).foldl (tip5Round prims) state

/-- `Tip5::hash_10`: fixed-length-domain state, overwrite the rate with the
input, one permutation, first `DIGEST_LENGTH` words. -/
def hash_10 (prims : BFieldPrims F) (input : List F) : List F :=
  let sponge := input ++ (tip5StateNew prims Domain.FixedLength).drop RATE
  (tip5Permutation prims sponge).take DIGEST_LENGTH

/-- `Tip5::hash_pair`: write `left.values()` into the first and
`right.values()` into the last `DIGEST_LENGTH` slots of a zeroed 10-word
input, then `hash_10`. -/
def tip5HashPair (prims : BFieldPrims F) (left right : List F) : List F :=
  let input := List.replicate RATE prims.zero
  let input := left ++ input.drop left.length
  let input := input.take DIGEST_LENGTH ++ right
  hash_10 prims input

/-- C4: `hash_10` is the one-permutation sponge pipeline: the fixed-length
domain state is zero on the rate words and one on the capacity words, the
10-element input overwrites the rate, the permutation runs exactly once and
the first `DIGEST_LENGTH` words are the digest; and `hash_pair` is `hash_10`
of the concatenation of the two 5-element digests. -/
theorem c4_hash10_pipeline (prims : BFieldPrims F) (input a b : List F)
    (hinput : input.length = RATE) (ha : a.length = DIGEST_LENGTH)
    (hb : b.length = DIGEST_LENGTH) :
    (input ++ (tip5StateNew prims Domain.FixedLength).drop RATE).length = STATE_SIZE ∧
    hash_10 prims input
      = (tip5Permutation prims
          (input ++ List.replicate (STATE_SIZE - RATE) prims.one)).take DIGEST_LENGTH ∧
    tip5StateNew prims Domain.FixedLength
      = List.replicate RATE prims.zero ++ List.replicate (STATE_SIZE - RATE) prims.one ∧
    (a ++ b).length = RATE ∧
    tip5HashPair prims a b = hash_10 prims (a ++ b) := by
  refine ⟨?_, rfl, rfl, ?_, ?_⟩
  · rw [List.length_append, hinput]
    rfl
  · rw [List.length_append, ha, hb]
    rfl
  · show hash_10 prims
        ((a ++ (List.replicate RATE prims.zero).drop a.length).take DIGEST_LENGTH ++ b)
      = hash_10 prims (a ++ b)
    congr 1
    rw [show DIGEST_LENGTH = a.length by rw [ha], List.take_left]

/-- A concrete instantiation of the field-element interface over `Nat`, for
exercising the Tip5 pipeline on explicit values. -/
def natPrims : BFieldPrims Nat where
  zero := 0
  one := 1
  add := fun a b => a + b
  sub := fun a b => a - b
  mul := fun a b => a * b
  ofU64 := fun x => x
  rawBytes := fun x => (List.range 8).map (fun k => x / 2 ^ (8 * k) % 256)
  fromRawBytes := fun bs => bs.foldr (fun b acc => b + 256 * acc) 0
  rawU128 := fun x => x
  montyred := fun x => x
  fromRawU64 := fun x => x

theorem c4_witness :
    (([0, 1, 2, 3, 4, 5, 6, 7, 8, 9] : List Nat)
        ++ (tip5StateNew natPrims Domain.FixedLength).drop RATE).length = STATE_SIZE ∧
    hash_10 natPrims [0, 1, 2, 3, 4, 5, 6, 7, 8, 9]
      = (tip5Permutation natPrims ([0, 1, 2, 3, 4, 5, 6, 7, 8, 9]
          ++ List.replicate (STATE_SIZE - RATE) natPrims.one)).take DIGEST_LENGTH ∧
    tip5StateNew natPrims Domain.FixedLength
      = List.replicate RATE natPrims.zero
        ++ List.replicate (STATE_SIZE - RATE) natPrims.one ∧
    (([0, 1, 2, 3, 4] : List Nat) ++ [5, 6, 7, 8, 9]).length = RATE ∧
    tip5HashPair natPrims [0, 1, 2, 3, 4] [5, 6, 7, 8, 9]
      = hash_10 natPrims ([0, 1, 2, 3, 4] ++ [5, 6, 7, 8, 9]) :=
  c4_hash10_pipeline natPrims [0, 1, 2, 3, 4, 5, 6, 7, 8, 9] [0, 1, 2, 3, 4]
    [5, 6, 7, 8, 9] (by decide) (by decide) (by decide)

end Tip5

end TF
